import Mathlib

/-!
# Verification of the bulk-message cleanup engine (`bot/exts/moderation/clean.py`)

Shallow embedding of the cleanup pipeline: the age classifier
(`is_older_than_14d`), the predicate builder (`_build_predicate`), the two
message-enumeration strategies (`_get_messages_from_cache`,
`_get_messages_from_channels`), the two-tier deleter (`_delete_found`,
`_delete_messages_individually`) and the orchestrating `_clean_messages`
entry point together with the `cog_command_error` handler.

Conventions of the embedding:
* Wall-clock time is modelled as an integer number of milliseconds
  (`time.time() * 1000`), constant during one pass.
* The shared `self.cleaning` flag is read at well-defined points only
  (cooperative scheduling); the value returned by the j-th read of a run is
  `cl j` for an oracle `cl : Nat → Bool`.  Externally, only `False` is ever
  written to the flag while a session runs (by the `stop` command), so a
  realistic oracle is antitone; theorems state this hypothesis where needed.
* Each platform delete call's outcome is `out j` for the j-th call of a run:
  success, a `NotFound` error (suppressed by the code), or any other
  `HTTPException` (which propagates).  A run returns the ordered list of
  observable events (flag checks, bulk deletes, individual deletes) along
  with its result, so that theorems can speak about the calls issued.
-/

/-- One field of a structured attachment (embed): `name` and `value`,
absent values modelled as `none` (Python `None`, falsy). -/
structure EmbedField where
  name : Option String
  value : Option String
deriving DecidableEq, Repr

/-- A structured attachment (embed) with the text attributes read by
`predicate_regex`: title, description, footer text, author name and fields. -/
structure Embed where
  title : Option String
  description : Option String
  footerText : Option String
  authorName : Option String
  fields : List EmbedField
deriving DecidableEq, Repr

/-- A platform message, restricted to the attributes the cleanup engine
reads: snowflake id, channel, author (id and bot flag), creation timestamp
(milliseconds) and textual content plus embeds. -/
structure Message where
  id : Nat
  channelId : Nat
  authorId : Nat
  authorBot : Bool
  createdAt : Nat
  content : String
  embeds : List Embed
deriving DecidableEq, Repr

/-- Outcome of one platform delete call (bulk or individual):
success, `NotFound` (tolerated) or any other `HTTPException` (fatal). -/
inductive DelOutcome where
  | ok
  | notFound
  | fatal
deriving DecidableEq, Repr

/-- Observable events of a deletion run: reads of the `self.cleaning` flag,
`channel.delete_messages` calls and `message.delete` calls, each with the
outcome the platform returned. -/
inductive Event where
  | checkCleaning (value : Bool)
  | bulkDelete (channel : Nat) (msgs : List Message) (outcome : DelOutcome)
  | deleteOne (m : Message) (outcome : DelOutcome)
deriving DecidableEq, Repr

/-- Discord epoch offset in milliseconds (`1420070400000` in the source). -/
def discordEpochMs : Nat := 1420070400000

/-- Fourteen days in milliseconds (`14 * 24 * 60 * 60 * 1000`). -/
def fourteenDaysMs : Nat := 14 * 24 * 60 * 60 * 1000

/-- `int((time.time() - 14 * 24 * 60 * 60) * 1000.0 - 1420070400000) << 22`
with `nowMs` the wall clock in milliseconds.  (For a pre-2015 clock Python
would produce a negative threshold and the comparison below would be false
for every id; natural truncation to `0` gives the same verdict.) -/
def two_weeks_old_snowflake (nowMs : Nat) : Nat :=
  (nowMs - fourteenDaysMs - discordEpochMs) <<< 22

/-- `is_older_than_14d` from `clean.py`: a message is too old for bulk
deletion iff its id is below the snowflake derived from `now - 14d`. -/
def is_older_than_14d (nowMs : Nat) (m : Message) : Bool :=
  m.id < two_weeks_old_snowflake nowMs

/-- The creation time (in milliseconds since the Unix epoch) encoded in a
snowflake identifier: the top bits (above the 22 low counter bits) count
milliseconds since the Discord epoch.  This is the spec's reading of
"identifiers encode creation time". -/
def snowflakeCreationMs (id : Nat) : Nat :=
  (id >>> 22) + discordEpochMs

/-! ## Predicate builder (`_build_predicate`, lines 123-186) -/

/-- `predicate_bots_only`: `message.author.bot`. -/
def predicate_bots_only (m : Message) : Bool :=
  m.authorBot

/-- `predicate_specific_users`: `message.author in users` (user identity is
its id). -/
def predicate_specific_users (users : List Nat) (m : Message) : Bool :=
  users.contains m.authorId

/-- The text attributes appended for one embed, in source order: title,
description, footer text, author name, then each field's name and value. -/
def embedContentParts (e : Embed) : List (Option String) :=
  [e.title, e.description, e.footerText, e.authorName] ++
    (e.fields.map (fun f => [f.name, f.value])).flatten

/-- The string `predicate_regex` searches: the message content and every
embed attribute, with falsy entries (`None` and `""`) removed, joined by
newlines. -/
def messageSearchContent (m : Message) : String :=
  String.intercalate "\n"
    (((some m.content :: (m.embeds.map embedContentParts).flatten).filterMap id).filter
      (fun s => s != ""))

/-- `predicate_regex` with the compiled pattern abstracted into its `search`
function (the regex engine is the Python standard library, an external
collaborator): the predicate searches the joined content. -/
def predicate_regex (search : String → Bool) (m : Message) : Bool :=
  search (messageSearchContent m)

/-- `predicate_range`: `first_limit <= message.created_at <= second_limit`.
The `none` case for `first` is unreachable once `_validate_input` has
passed (Python would raise a `TypeError` there). -/
def predicate_range (first : Option Nat) (second : Nat) (m : Message) : Bool :=
  match first with
  | some f => decide (f ≤ m.createdAt) && decide (m.createdAt ≤ second)
  | none => false

/-- `predicate_after`: `message.created_at >= first_limit`. -/
def predicate_after (first : Nat) (m : Message) : Bool :=
  decide (first ≤ m.createdAt)

/-- Python truthiness of the `users` argument (`None` and `[]` are falsy). -/
def truthyUsers (users : Option (List Nat)) : Bool :=
  match users with
  | some (_ :: _) => true
  | _ => false

/-- `_build_predicate`: collect the active sub-tests in source order and
conjoin them (`all`); no test means every message matches. -/
def _build_predicate (bots_only : Bool) (users : Option (List Nat))
    (regex : Option (String → Bool)) (first_limit second_limit : Option Nat) :
    Message → Bool :=
  let preds : List (Message → Bool) :=
    (if bots_only then [predicate_bots_only] else []) ++
      (match users with
        | some (u :: us) => [predicate_specific_users (u :: us)]
        | _ => []) ++
      (match regex with
        | some r => [predicate_regex r]
        | none => []) ++
      (match second_limit with
        | some s => [predicate_range first_limit s]
        | none =>
          match first_limit with
          | some f => [predicate_after f]
          | none => [])
  match preds with
  | [] => fun _ => true
  | [p] => p
  | ps => fun m => ps.all (fun p => p m)

/-- The searchable text as the claim words it: the newline-join of the
non-empty entries among the message body and, for each embed, its title,
description, footer text, author name, and every field's name and value. -/
def claimSearchText (m : Message) : String :=
  String.intercalate "\n"
    (((some m.content ::
          m.embeds.flatMap (fun e =>
            e.title :: e.description :: e.footerText :: e.authorName ::
              e.fields.flatMap (fun f => [f.name, f.value]))).filterMap id).filter
      (fun s => s != ""))

/-- Modelled from the spec: the standard library's `re.search` for the
pattern `[0-9]+` compiled with `re.IGNORECASE` (the engine itself is not
part of this repository).  A search — substring semantics, not full
match — succeeds iff the text contains at least one decimal digit; case
folding does not affect digits. -/
def searchDigitsCI (s : String) : Bool :=
  s.data.any (fun ch => ch.isDigit)

/-- The example message of the claim: empty body, one embed whose only
searchable text is the field value `"42"`. -/
def embedFieldValue42 : Message :=
  { id := 1, channelId := 1, authorId := 1, authorBot := false,
    createdAt := 0, content := "",
    embeds := [{ title := none, description := none, footerText := none,
                 authorName := none,
                 fields := [{ name := none, value := some "42" }] }] }

/-! ## Deleter (`_delete_found` and `_delete_messages_individually`,
lines 249-307) -/

/-- Result of one (sub-)run: the next unread index of the cleaning-flag
oracle (`c`), the next unused index of the delete-outcome oracle (`k`), the
events the run emitted, and its value. -/
structure TraceOut (α : Type) where
  c : Nat
  k : Nat
  tr : List Event
  res : α
deriving DecidableEq, Repr

/-- Prefix a run's event list with the events already emitted. -/
def TraceOut.prepend (tr : List Event) (o : TraceOut α) : TraceOut α :=
  ⟨o.c, o.k, tr ++ o.tr, o.res⟩

/-- How the per-channel scan loop of `_delete_found` (lines 274-291) ends:
cancelled (the whole function returns the accumulated result), a fatal
delete error, a break at the first too-old message (`broke`, with the index
reached, the pending batch and the accumulated result), or the list
exhausted (`done`). -/
inductive LoopRes where
  | cancelled (deleted : List Message)
  | fatal
  | broke (cut : Nat) (td deleted : List Message)
  | done (td deleted : List Message)
deriving DecidableEq, Repr

/-- `_delete_messages_individually` (lines 249-259): delete one message at a
time, checking the cleaning flag before each; `NotFound` is suppressed
(the message is then not appended), any other error propagates. -/
def _delete_messages_individually (cl : Nat → Bool) (out : Nat → DelOutcome) :
    List Message → List Message → Nat → Nat →
    TraceOut (Except Unit (List Message))
  | [], deleted, c, k => ⟨c, k, [], Except.ok deleted⟩
  | m :: rest, deleted, c, k =>
    if cl c = false then
      ⟨c + 1, k, [Event.checkCleaning false], Except.ok deleted⟩
    else
      match out k with
      | DelOutcome.fatal =>
        ⟨c + 1, k + 1,
          [Event.checkCleaning true, Event.deleteOne m DelOutcome.fatal],
          Except.error ()⟩
      | DelOutcome.notFound =>
        TraceOut.prepend
          [Event.checkCleaning true, Event.deleteOne m DelOutcome.notFound]
          (_delete_messages_individually cl out rest deleted (c + 1) (k + 1))
      | DelOutcome.ok =>
        TraceOut.prepend
          [Event.checkCleaning true, Event.deleteOne m DelOutcome.ok]
          (_delete_messages_individually cl out rest (deleted ++ [m]) (c + 1) (k + 1))

/-- The per-channel scan loop of `_delete_found` (lines 271-291): check the
flag, break at the first too-old message, else batch the message and flush
the batch with `channel.delete_messages` when it reaches 100 (`NotFound`
suppressed, the batch still extends `deleted`; other errors propagate). -/
def delFoundLoop (cl : Nat → Bool) (out : Nat → DelOutcome) (now ch : Nat) :
    List Message → Nat → List Message → List Message → Nat → Nat →
    TraceOut LoopRes
  | [], _, td, d, c, k => ⟨c, k, [], LoopRes.done td d⟩
  | m :: rest, idx, td, d, c, k =>
    if cl c = false then
      ⟨c + 1, k, [Event.checkCleaning false], LoopRes.cancelled d⟩
    else if is_older_than_14d now m then
      ⟨c + 1, k, [Event.checkCleaning true], LoopRes.broke idx td d⟩
    else
      if (td ++ [m]).length = 100 then
        if out k = DelOutcome.fatal then
          ⟨c + 1, k + 1,
            [Event.checkCleaning true,
              Event.bulkDelete ch (td ++ [m]) DelOutcome.fatal],
            LoopRes.fatal⟩
        else
          TraceOut.prepend
            [Event.checkCleaning true, Event.bulkDelete ch (td ++ [m]) (out k)]
            (delFoundLoop cl out now ch rest (idx + 1) [] (d ++ (td ++ [m]))
              (c + 1) (k + 1))
      else
        TraceOut.prepend [Event.checkCleaning true]
          (delFoundLoop cl out now ch rest (idx + 1) (td ++ [m]) d (c + 1) k)

/-- How a channel's processing ends: an early return of the whole
`_delete_found` call, a fatal error, or fall-through to the next channel. -/
inductive ChanRes where
  | earlyRet (deleted : List Message)
  | fatal
  | next (deleted : List Message)
deriving DecidableEq, Repr

/-- Lines 301-305 of `_delete_found`: the flag check after the leftover
flush, then the individual-deletion pass over `messages[current_index:]`
when a too-old message was found. -/
def delFoundAfterFlush (cl : Nat → Bool) (out : Nat → DelOutcome)
    (msgs : List Message) (cut : Option Nat) (d : List Message) (c k : Nat) :
    TraceOut ChanRes :=
  if cl c = false then
    ⟨c + 1, k, [Event.checkCleaning false], ChanRes.earlyRet d⟩
  else
    match cut with
    | none => ⟨c + 1, k, [Event.checkCleaning true], ChanRes.next d⟩
    | some cutIdx =>
      let iv := _delete_messages_individually cl out (msgs.drop cutIdx) [] (c + 1) k
      match iv.res with
      | Except.error _ =>
        ⟨iv.c, iv.k, Event.checkCleaning true :: iv.tr, ChanRes.fatal⟩
      | Except.ok dd =>
        ⟨iv.c, iv.k, Event.checkCleaning true :: iv.tr, ChanRes.next (d ++ dd)⟩

/-- Lines 293-305 of `_delete_found`: the flag check after the scan loop,
the flush of a non-empty leftover batch (`NotFound` suppressed, the batch
still extends `deleted`), then `delFoundAfterFlush`. -/
def delFoundAfterLoop (cl : Nat → Bool) (out : Nat → DelOutcome) (ch : Nat)
    (msgs : List Message) (cut : Option Nat) (td d : List Message)
    (c k : Nat) : TraceOut ChanRes :=
  if cl c = false then
    ⟨c + 1, k, [Event.checkCleaning false], ChanRes.earlyRet d⟩
  else
    match td with
    | [] =>
      TraceOut.prepend [Event.checkCleaning true]
        (delFoundAfterFlush cl out msgs cut d (c + 1) k)
    | _ :: _ =>
      if out k = DelOutcome.fatal then
        ⟨c + 1, k + 1,
          [Event.checkCleaning true, Event.bulkDelete ch td DelOutcome.fatal],
          ChanRes.fatal⟩
      else
        TraceOut.prepend
          [Event.checkCleaning true, Event.bulkDelete ch td (out k)]
          (delFoundAfterFlush cl out msgs cut (d ++ td) (c + 1) (k + 1))

/-- One channel of `_delete_found`: the scan loop followed by the
post-loop flushes and the individual pass. -/
def delFoundChannel (cl : Nat → Bool) (out : Nat → DelOutcome) (now ch : Nat)
    (msgs d : List Message) (c k : Nat) : TraceOut ChanRes :=
  let st := delFoundLoop cl out now ch msgs 0 [] d c k
  match st.res with
  | LoopRes.cancelled dd => ⟨st.c, st.k, st.tr, ChanRes.earlyRet dd⟩
  | LoopRes.fatal => ⟨st.c, st.k, st.tr, ChanRes.fatal⟩
  | LoopRes.broke cut td dd =>
    TraceOut.prepend st.tr
      (delFoundAfterLoop cl out ch msgs (some cut) td dd st.c st.k)
  | LoopRes.done td dd =>
    TraceOut.prepend st.tr
      (delFoundAfterLoop cl out ch msgs none td dd st.c st.k)

/-- The channel iteration of `_delete_found` (line 270): insertion order of
the mapping, accumulating `deleted` across channels. -/
def delFoundGo (cl : Nat → Bool) (out : Nat → DelOutcome) (now : Nat) :
    List (Nat × List Message) → List Message → Nat → Nat →
    TraceOut (Except Unit (List Message))
  | [], d, c, k => ⟨c, k, [], Except.ok d⟩
  | (ch, msgs) :: rest, d, c, k =>
    let co := delFoundChannel cl out now ch msgs d c k
    match co.res with
    | ChanRes.earlyRet dd => ⟨co.c, co.k, co.tr, Except.ok dd⟩
    | ChanRes.fatal => ⟨co.c, co.k, co.tr, Except.error ()⟩
    | ChanRes.next dd => TraceOut.prepend co.tr (delFoundGo cl out now rest dd co.c co.k)

/-- `_delete_found` (lines 261-307): two-tier deletion over the per-channel
matches, returning the deleted messages (or propagating a fatal error). -/
def _delete_found (cl : Nat → Bool) (out : Nat → DelOutcome) (now : Nat)
    (message_mappings : List (Nat × List Message)) :
    TraceOut (Except Unit (List Message)) :=
  delFoundGo cl out now message_mappings [] 0 0

/-! ## Trace observations -/

/-- The message lists of the bulk-delete calls of a trace, in order. -/
def bulkLists : List Event → List (List Message)
  | [] => []
  | Event.bulkDelete _ msgs _ :: rest => msgs :: bulkLists rest
  | _ :: rest => bulkLists rest

/-- The messages given to individual delete calls of a trace, in order. -/
def indivList : List Event → List Message
  | [] => []
  | Event.deleteOne m _ :: rest => m :: indivList rest
  | _ :: rest => indivList rest

/-- The messages a trace's calls add to the returned `deleted` list: every
message of a bulk call (the code extends `deleted` outside the
`suppress(NotFound)` block) and the individually deleted messages whose
call succeeded (the append sits inside the suppression there). -/
def deletedOfTrace : List Event → List Message
  | [] => []
  | Event.bulkDelete _ msgs _ :: rest => msgs ++ deletedOfTrace rest
  | Event.deleteOne m DelOutcome.ok :: rest => m :: deletedOfTrace rest
  | _ :: rest => deletedOfTrace rest

/-- Number of messages covered by calls whose outcome was `NotFound`. -/
def notFoundCovered : List Event → Nat
  | [] => 0
  | Event.bulkDelete _ msgs DelOutcome.notFound :: rest =>
    msgs.length + notFoundCovered rest
  | Event.deleteOne _ DelOutcome.notFound :: rest => 1 + notFoundCovered rest
  | _ :: rest => notFoundCovered rest

/-- A trace contains no delete call at all. -/
def noCalls : List Event → Bool
  | [] => true
  | Event.bulkDelete _ _ _ :: _ => false
  | Event.deleteOne _ _ :: _ => false
  | _ :: rest => noCalls rest

/-- No delete call occurs after a flag check that read `false`. -/
def okTrace : List Event → Bool
  | [] => true
  | Event.checkCleaning false :: rest => noCalls rest
  | _ :: rest => okTrace rest

/-- The trace contains a flag check that read `false`. -/
def hasFalse : List Event → Bool
  | [] => false
  | Event.checkCleaning false :: _ => true
  | _ :: rest => hasFalse rest

/-- The consecutive complete 100-blocks of a list (the bulk batches the
scan loop flushes from a stream of eligible messages). -/
def fullChunks (l : List Message) : List (List Message) :=
  if _h : 100 ≤ l.length then l.take 100 :: fullChunks (l.drop 100) else []
termination_by l.length
decreasing_by simp [List.length_drop]; omega

/-! ## Message sources (`_get_messages_from_cache`, lines 198-211, and
`_get_messages_from_channels`, lines 213-235) -/

/-- The per-channel match mapping (`defaultdict(list)` keyed by channel,
insertion-ordered, matches appended in scan order). -/
abbrev Mappings := List (Nat × List Message)

/-- `message_mappings[message.channel].append(message)`: append to the
channel's list, creating the key at the end on first use. -/
def addToMapping : Mappings → Nat → Message → Mappings
  | [], ch, m => [(ch, [m])]
  | (c, ms) :: rest, ch, m =>
    if c = ch then (c, ms ++ [m]) :: rest else (c, ms) :: addToMapping rest ch m

/-- The scan of `_get_messages_from_cache`: flag check before each cached
message, returning the accumulated containers on cancellation.  Also
returns the next flag-oracle index. -/
def cacheGo (cl : Nat → Bool) (p : Message → Bool) :
    List Message → Mappings → List Nat → Nat → (Mappings × List Nat) × Nat
  | [], mm, ids, c => ((mm, ids), c)
  | m :: rest, mm, ids, c =>
    if cl c = false then ((mm, ids), c + 1)
    else if p m then
      cacheGo cl p rest (addToMapping mm m.channelId m) (ids ++ [m.id]) (c + 1)
    else cacheGo cl p rest mm ids (c + 1)

/-- `_get_messages_from_cache`: scan `islice(self.bot.cached_messages,
traverse)` against the predicate. -/
def _get_messages_from_cache (cl : Nat → Bool) (traverse : Nat)
    (to_delete : Message → Bool) (cache : List Message) :
    Mappings × List Nat :=
  (cacheGo cl to_delete (cache.take traverse) [] [] 0).1

/-- One step of a history iteration: the platform yields a message or the
fetch raises (rate limit / transient network error). -/
inductive HEvent where
  | msg (m : Message)
  | fail
deriving DecidableEq, Repr

/-- `channel.history(limit=traverse, ...)`: at most `traverse` messages are
yielded; a failure ends the iteration by raising. -/
def limitHist : Nat → List HEvent → List HEvent
  | _, [] => []
  | 0, _ :: _ => []
  | _ + 1, HEvent.fail :: _ => [HEvent.fail]
  | n + 1, HEvent.msg m :: rest => HEvent.msg m :: limitHist n rest

/-- How one channel's history scan ends: cancelled mid-iteration, the fetch
raised, or the events were exhausted. -/
inductive ChanScan where
  | cancelled (c : Nat)
  | failed (c : Nat)
  | scanned (mm : Mappings) (ids : List Nat) (c : Nat)
deriving Repr

/-- The inner loop of `_get_messages_from_channels`: fetch, flag check,
predicate. -/
def histChanGo (cl : Nat → Bool) (p : Message → Bool) :
    List HEvent → Mappings → List Nat → Nat → ChanScan
  | [], mm, ids, c => ChanScan.scanned mm ids c
  | HEvent.fail :: _, _, _, c => ChanScan.failed c
  | HEvent.msg m :: rest, mm, ids, c =>
    if cl c = false then ChanScan.cancelled (c + 1)
    else if p m then
      histChanGo cl p rest (addToMapping mm m.channelId m) (ids ++ [m.id]) (c + 1)
    else histChanGo cl p rest mm ids (c + 1)

/-- Result of `_get_messages_from_channels`: next flag-oracle index and
either the containers or a propagated fetch error. -/
structure HistOut where
  c : Nat
  res : Except Unit (Mappings × List Nat)

/-- The channel iteration of `_get_messages_from_channels`: on cancellation
mid-iteration the whole call returns fresh empty containers. -/
def histGo (cl : Nat → Bool) (p : Message → Bool)
    (histories : Nat → Option Nat → Option Nat → List HEvent)
    (traverse : Nat) (before after : Option Nat) :
    List Nat → Mappings → List Nat → Nat → HistOut
  | [], mm, ids, c => ⟨c, Except.ok (mm, ids)⟩
  | ch :: rest, mm, ids, c =>
    match histChanGo cl p (limitHist traverse (histories ch before after)) mm ids c with
    | ChanScan.cancelled c' => ⟨c', Except.ok ([], [])⟩
    | ChanScan.failed c' => ⟨c', Except.error ()⟩
    | ChanScan.scanned mm' ids' c' => histGo cl p histories traverse before after rest mm' ids' c'

/-- `_get_messages_from_channels`: per channel, iterate
`channel.history(limit=traverse, before=before, after=after)` (the
platform's response to those bounds is the environment's `histories`
function), testing each yielded message. -/
def _get_messages_from_channels (cl : Nat → Bool)
    (histories : Nat → Option Nat → Option Nat → List HEvent)
    (traverse : Nat) (channels : List Nat) (to_delete : Message → Bool)
    (before after : Option Nat) : HistOut :=
  histGo cl to_delete histories traverse before after channels [] [] 0

/-! ## Orchestration (`_clean_messages`, lines 344-417, `cog_command_error`,
lines 590-592, and the `use_cache` default of `clean_group`, lines 464-465) -/

/-- A range bound: a message reference or an already-converted datetime
(the `Age` and `ISODateTime` converters produce datetimes). -/
inductive CleanLimit where
  | msg (m : Message)
  | time (t : Nat)
deriving DecidableEq, Repr

/-- The channel scope: the wildcard `"*"` or a list of channels. -/
inductive ChannelScope where
  | star
  | chans (l : List Nat)
deriving DecidableEq, Repr

/-- Python truthiness of the `channels` argument: `None` and an empty list
are falsy; `"*"` and a non-empty list are truthy. -/
def truthyChannels : Option ChannelScope → Bool
  | some ChannelScope.star => true
  | some (ChannelScope.chans (_ :: _)) => true
  | _ => false

/-- `isinstance(limit, Message)`. -/
def isMsgLimit : Option CleanLimit → Bool
  | some (CleanLimit.msg _) => true
  | _ => false

/-- The rejection reasons of `_validate_input` (lines 88-115), in source
order. -/
inductive ValidationError where
  | tooManyMessages
  | messageAndChannels
  | differentChannels
  | botsAndUsers
  | secondWithoutFirst
deriving DecidableEq, Repr

/-- `_validate_input`: raise on an invalid argument combination.
`messageLimit` stands for `CleanMessages.message_limit` (a constant defined
outside this file's sources). -/
def _validate_input (messageLimit : Nat) (traverse : Nat)
    (channels : Option ChannelScope) (bots_only : Bool)
    (users : Option (List Nat)) (first_limit second_limit : Option CleanLimit) :
    Option ValidationError :=
  if messageLimit < traverse then some ValidationError.tooManyMessages
  else if (isMsgLimit first_limit || isMsgLimit second_limit) &&
      truthyChannels channels then some ValidationError.messageAndChannels
  else if (match first_limit, second_limit with
    | some (CleanLimit.msg m1), some (CleanLimit.msg m2) =>
      decide (m1.channelId ≠ m2.channelId)
    | _, _ => false) then some ValidationError.differentChannels
  else if truthyUsers users && bots_only then some ValidationError.botsAndUsers
  else if second_limit.isSome && !first_limit.isSome then
    some ValidationError.secondWithoutFirst
  else none

/-- Lines 368-375: default the scope to the limit message's channel, or to
the invoking channel, when `channels` is falsy. -/
def resolveChannels (ctxChannel : Nat) (channels : Option ChannelScope)
    (first_limit second_limit : Option CleanLimit) : ChannelScope :=
  match channels with
  | some ChannelScope.star => ChannelScope.star
  | some (ChannelScope.chans (c :: cs)) => ChannelScope.chans (c :: cs)
  | _ =>
    match first_limit with
    | some (CleanLimit.msg m) => ChannelScope.chans [m.channelId]
    | _ =>
      match second_limit with
      | some (CleanLimit.msg m) => ChannelScope.chans [m.channelId]
      | _ => ChannelScope.chans [ctxChannel]

/-- Lines 377-380: a message bound becomes its creation time. -/
def resolveLimit : Option CleanLimit → Option Nat
  | some (CleanLimit.msg m) => some m.createdAt
  | some (CleanLimit.time t) => some t
  | none => none

/-- Lines 381-382: `sorted([first_limit, second_limit])` when both are
present (datetimes are always truthy). -/
def normalizeLimits (first second : Option Nat) : Option Nat × Option Nat :=
  match first, second with
  | some a, some b => (some (min a b), some (max a b))
  | f, s => (f, s)

/-- The arguments of a `_clean_messages` call. -/
structure CleanArgs where
  traverse : Nat
  channels : Option ChannelScope
  bots_only : Bool
  users : Option (List Nat)
  regex : Option (String → Bool)
  first_limit : Option CleanLimit
  second_limit : Option CleanLimit
  use_cache : Bool

/-- The environment of a `_clean_messages` call: the message-limit
constant, the invoking channel, the guild's text channels, the recency
cache and the platform's history responses. -/
structure CleanEnv where
  messageLimit : Nat
  ctxChannel : Nat
  guildTextChannels : List Nat
  cache : List Message
  histories : Nat → Option Nat → Option Nat → List HEvent

/-- The enumeration call a session issued: which strategy with which
arguments. -/
inductive EnumCall where
  | cache (traverse : Nat)
  | channels (traverse : Nat) (chans : List Nat) (before after : Option Nat)
deriving DecidableEq, Repr

/-- How a `_clean_messages` invocation ended. -/
inductive CleanResult where
  | rejected
  | invalid
  | cancelled
  | fatalError
  | completed (deleted : List Message)
deriving DecidableEq, Repr

/-- Observable outcome of a `_clean_messages` invocation: its result, the
final value of the `self.cleaning` flag once control returns, the limit
pair handed to `_build_predicate`, and the enumeration call issued. -/
structure CleanOutcome where
  result : CleanResult
  finalCleaning : Bool
  limitsUsed : Option (Option Nat × Option Nat)
  enumCall : Option EnumCall
deriving DecidableEq, Repr

/-- Lines 404-417: the post-enumeration flag check, the deletion pass and
the clearing of the flag.  A read of `false` means the `stop` command
already wrote `false`, so the flag stays `false` on that early return; a
fatal error leaves the flag set (`cog_command_error` clears it later). -/
def cleanAfterEnum (cl : Nat → Bool) (out : Nat → DelOutcome) (now : Nat)
    (limits : Option Nat × Option Nat) (call : EnumCall)
    (enumRes : Except Unit (Mappings × List Nat)) (c : Nat) : CleanOutcome :=
  match enumRes with
  | Except.error _ =>
    { result := CleanResult.fatalError, finalCleaning := true,
      limitsUsed := some limits, enumCall := some call }
  | Except.ok (mm, _) =>
    if cl c = false then
      { result := CleanResult.cancelled, finalCleaning := false,
        limitsUsed := some limits, enumCall := some call }
    else
      let fo := delFoundGo cl out now mm [] (c + 1) 0
      match fo.res with
      | Except.error _ =>
        { result := CleanResult.fatalError, finalCleaning := true,
          limitsUsed := some limits, enumCall := some call }
      | Except.ok d =>
        { result := CleanResult.completed d, finalCleaning := false,
          limitsUsed := some limits, enumCall := some call }

/-- `_clean_messages` (lines 344-417): validate, reject a concurrent
session, set the flag, normalize scope and limits, build the predicate,
enumerate with the selected strategy, delete, clear the flag.
`cleaning0` is the value of `self.cleaning` on entry. -/
def _clean_messages (env : CleanEnv) (cl : Nat → Bool) (out : Nat → DelOutcome)
    (now : Nat) (args : CleanArgs) (cleaning0 : Bool) : CleanOutcome :=
  match _validate_input env.messageLimit args.traverse args.channels
      args.bots_only args.users args.first_limit args.second_limit with
  | some _ =>
    { result := CleanResult.invalid, finalCleaning := cleaning0,
      limitsUsed := none, enumCall := none }
  | none =>
    if cleaning0 then
      { result := CleanResult.rejected, finalCleaning := true,
        limitsUsed := none, enumCall := none }
    else
      let chans := resolveChannels env.ctxChannel args.channels
        args.first_limit args.second_limit
      let lims := normalizeLimits (resolveLimit args.first_limit)
        (resolveLimit args.second_limit)
      let pred := _build_predicate args.bots_only args.users args.regex
        lims.1 lims.2
      if decide (chans = ChannelScope.star) && args.use_cache then
        let ce := cacheGo cl pred (env.cache.take args.traverse) [] [] 0
        cleanAfterEnum cl out now lims (EnumCall.cache args.traverse)
          (Except.ok ce.1) ce.2
      else
        let delChans :=
          match chans with
          | ChannelScope.star => env.guildTextChannels
          | ChannelScope.chans l => l
        let ho := _get_messages_from_channels cl env.histories args.traverse
          delChans pred lims.2 lims.1
        cleanAfterEnum cl out now lims
          (EnumCall.channels args.traverse delChans lims.2 lims.1) ho.res ho.c

/-- `cog_command_error` (lines 590-592): on an uncaught error escaping a
command of the cog, set `self.cleaning = False`. -/
def cog_command_error (o : CleanOutcome) : CleanOutcome :=
  { o with finalCleaning := false }

/-- A full command invocation: `_clean_messages`, with `cog_command_error`
applied by the framework whenever an exception escaped (a validation
`BadArgument` or a fatal platform error). -/
def clean_command_invoke (env : CleanEnv) (cl : Nat → Bool)
    (out : Nat → DelOutcome) (now : Nat) (args : CleanArgs)
    (cleaning0 : Bool) : CleanOutcome :=
  let o := _clean_messages env cl out now args cleaning0
  match o.result with
  | CleanResult.invalid => cog_command_error o
  | CleanResult.fatalError => cog_command_error o
  | _ => o

/-- Lines 464-465 of `clean_group`: `if use_cache is None: use_cache =
channels == "*"`. -/
def clean_group_use_cache (use_cache : Option Bool)
    (channels : Option ChannelScope) : Bool :=
  match use_cache with
  | some b => b
  | none => decide (channels = some ChannelScope.star)

/-- The accumulated `deleted` list a loop exit carries (`none` for a fatal
error, whose exception discards the local variable). -/
def LoopRes.acc : LoopRes → Option (List Message)
  | LoopRes.cancelled d => some d
  | LoopRes.fatal => none
  | LoopRes.broke _ _ d => some d
  | LoopRes.done _ d => some d

/-- The accumulated `deleted` list a channel result carries. -/
def ChanRes.acc : ChanRes → Option (List Message)
  | ChanRes.earlyRet d => some d
  | ChanRes.fatal => none
  | ChanRes.next d => some d

/-- Number of messages a (limited) history iteration yields. -/
def countMsgs : List HEvent → Nat
  | [] => 0
  | HEvent.msg _ :: rest => 1 + countMsgs rest
  | HEvent.fail :: rest => countMsgs rest

/-- The history iteration raises no fetch error. -/
def noFail : List HEvent → Bool
  | [] => true
  | HEvent.fail :: _ => false
  | HEvent.msg _ :: rest => noFail rest

/-! ## Concrete inputs used by witnesses and counterexamples -/

/-- A cached message used in the enumeration witness. -/
def mCache1 : Message :=
  { id := 11, channelId := 1, authorId := 1, authorBot := false,
    createdAt := 5, content := "a", embeds := [] }

/-- A second cached message used in the enumeration witness. -/
def mCache2 : Message :=
  { id := 12, channelId := 1, authorId := 2, authorBot := true,
    createdAt := 6, content := "b", embeds := [] }

/-- A minimal environment. -/
def envTriv : CleanEnv :=
  { messageLimit := 1000, ctxChannel := 1, guildTextChannels := [],
    cache := [], histories := fun _ _ _ => [] }

/-- An invalid argument combination: `bots_only` together with a user list
(line 110 of the source raises `BadArgument` for it). -/
def argsInvalid : CleanArgs :=
  { traverse := 1, channels := none, bots_only := true, users := some [5],
    regex := none, first_limit := none, second_limit := none,
    use_cache := false }

/-- A valid argument combination with no filters. -/
def argsValidSimple : CleanArgs :=
  { traverse := 3, channels := none, bots_only := false, users := none,
    regex := none, first_limit := none, second_limit := none,
    use_cache := false }

/-- Valid arguments selecting the wildcard scope with the cache enabled. -/
def argsStarCache : CleanArgs :=
  { traverse := 3, channels := some ChannelScope.star, bots_only := false,
    users := none, regex := none, first_limit := none, second_limit := none,
    use_cache := true }

/-- Valid arguments carrying two out-of-order time bounds. -/
def argsBothLimits : CleanArgs :=
  { traverse := 3, channels := none, bots_only := false, users := none,
    regex := none, first_limit := some (CleanLimit.time 10),
    second_limit := some (CleanLimit.time 5), use_cache := false }

/-- A wall clock ten million milliseconds past the point where the
bulk-age threshold is `10000000 <<< 22`. -/
def nowCE : Nat := discordEpochMs + fourteenDaysMs + 10000000

/-- The snowflake threshold at `nowCE`: ids at or above it are
bulk-eligible there. -/
def youngId : Nat := 10000000 <<< 22

/-- A bulk-eligible bot message at `nowCE`. -/
def mYoung : Message :=
  { id := youngId, channelId := 1, authorId := 1, authorBot := true,
    createdAt := 0, content := "", embeds := [] }

/-- A message older than the age ceiling at `nowCE`. -/
def mOld : Message :=
  { id := 42, channelId := 1, authorId := 1, authorBot := true,
    createdAt := 0, content := "", embeds := [] }

/-- 101 bulk-eligible messages in one channel. -/
def ceMsgs : List Message :=
  (List.range 101).map (fun i =>
    { id := youngId + i, channelId := 1, authorId := 1, authorBot := true,
      createdAt := 0, content := "", embeds := [] })

/-- An outcome oracle whose first delete call reports `NotFound` and whose
later calls succeed. -/
def outCE : Nat → DelOutcome :=
  fun k => if k = 0 then DelOutcome.notFound else DelOutcome.ok

/-- Claim C3: the age classifier reports a message not bulk-eligible iff the
creation time encoded in its snowflake id is more than 14 days before the
wall clock at classification time, with the threshold built by converting
`now − 14d` to Discord-epoch milliseconds and shifting left 22 bits. -/
theorem c3_age_classifier (nowMs : Nat) (m : Message)
    (hclock : discordEpochMs + fourteenDaysMs ≤ nowMs) :
    is_older_than_14d nowMs m = true ↔
      snowflakeCreationMs m.id + fourteenDaysMs < nowMs := by
  unfold is_older_than_14d two_weeks_old_snowflake snowflakeCreationMs
  unfold discordEpochMs fourteenDaysMs at *
  rw [Nat.shiftLeft_eq, Nat.shiftRight_eq_div_pow]
  rw [decide_eq_true_eq]
  rw [← Nat.div_lt_iff_lt_mul (by norm_num : 0 < (2 : Nat) ^ 22)]
  omega

/-- Witness for C3 at a concrete clock and message. -/
theorem c3_age_classifier_witness :
    discordEpochMs + fourteenDaysMs ≤ 1700000000000 ∧
      (is_older_than_14d 1700000000000
          { id := 0, channelId := 0, authorId := 0, authorBot := false,
            createdAt := 0, content := "", embeds := [] } = true ↔
        snowflakeCreationMs 0 + fourteenDaysMs < 1700000000000) :=
  ⟨by decide,
    c3_age_classifier 1700000000000
      { id := 0, channelId := 0, authorId := 0, authorBot := false,
        createdAt := 0, content := "", embeds := [] } (by decide)⟩

/-- Claim C9: the content-pattern sub-test returns true exactly when the
pattern search succeeds on the newline-join of the non-empty entries among
the message body and, per embed, title, description, footer text, author
name and every field's name and value; and the example message whose only
searchable text is an embed field value "42" matches `[0-9]+`. -/
theorem c9_regex_content :
    (∀ (search : String → Bool) (m : Message),
        predicate_regex search m = search (claimSearchText m)) ∧
      predicate_regex searchDigitsCI embedFieldValue42 = true := by
  constructor
  · intro search m
    unfold predicate_regex messageSearchContent claimSearchText
    congr 2
  · decide

/-! ## Orchestration lemmas -/

/-- Every branch of the post-enumeration phase records the enumeration call
it was reached from. -/
theorem cleanAfterEnum_enumCall (cl : Nat → Bool) (out : Nat → DelOutcome)
    (now : Nat) (lims : Option Nat × Option Nat) (call : EnumCall)
    (enumRes : Except Unit (Mappings × List Nat)) (c : Nat) :
    (cleanAfterEnum cl out now lims call enumRes c).enumCall = some call := by
  unfold cleanAfterEnum
  rcases enumRes with e | ⟨mm, ids⟩
  · rfl
  · by_cases h : cl c = false
    · simp [h]
    · simp [h]
      cases (delFoundGo cl out now mm [] (c + 1) 0).res <;> rfl

/-- Every branch of the post-enumeration phase records the limits used. -/
theorem cleanAfterEnum_limitsUsed (cl : Nat → Bool) (out : Nat → DelOutcome)
    (now : Nat) (lims : Option Nat × Option Nat) (call : EnumCall)
    (enumRes : Except Unit (Mappings × List Nat)) (c : Nat) :
    (cleanAfterEnum cl out now lims call enumRes c).limitsUsed = some lims := by
  unfold cleanAfterEnum
  rcases enumRes with e | ⟨mm, ids⟩
  · rfl
  · by_cases h : cl c = false
    · simp [h]
    · simp [h]
      cases (delFoundGo cl out now mm [] (c + 1) 0).res <;> rfl

/-- The post-enumeration phase either leaves the flag cleared or ends in a
fatal error (which the error handler will clear). -/
theorem cleanAfterEnum_flag (cl : Nat → Bool) (out : Nat → DelOutcome)
    (now : Nat) (lims : Option Nat × Option Nat) (call : EnumCall)
    (enumRes : Except Unit (Mappings × List Nat)) (c : Nat) :
    (cleanAfterEnum cl out now lims call enumRes c).finalCleaning = false ∨
      (cleanAfterEnum cl out now lims call enumRes c).result =
        CleanResult.fatalError := by
  unfold cleanAfterEnum
  rcases enumRes with e | ⟨mm, ids⟩
  · right; rfl
  · by_cases h : cl c = false
    · left; simp [h]
    · simp [h]
      cases (delFoundGo cl out now mm [] (c + 1) 0).res
      · right; rfl
      · left; rfl

/-- The error handler is transparent for everything but the flag. -/
theorem clean_command_invoke_enumCall (env : CleanEnv) (cl : Nat → Bool)
    (out : Nat → DelOutcome) (now : Nat) (args : CleanArgs) (cleaning0 : Bool) :
    (clean_command_invoke env cl out now args cleaning0).enumCall =
      (_clean_messages env cl out now args cleaning0).enumCall := by
  unfold clean_command_invoke
  cases h : (_clean_messages env cl out now args cleaning0).result <;>
    simp [h, cog_command_error]

/-- The error handler is transparent for the recorded limits. -/
theorem clean_command_invoke_limitsUsed (env : CleanEnv) (cl : Nat → Bool)
    (out : Nat → DelOutcome) (now : Nat) (args : CleanArgs) (cleaning0 : Bool) :
    (clean_command_invoke env cl out now args cleaning0).limitsUsed =
      (_clean_messages env cl out now args cleaning0).limitsUsed := by
  unfold clean_command_invoke
  cases h : (_clean_messages env cl out now args cleaning0).result <;>
    simp [h, cog_command_error]

/-- The resolved scope is the wildcard exactly when the argument was. -/
theorem resolveChannels_star (ctxChannel : Nat) (channels : Option ChannelScope)
    (first_limit second_limit : Option CleanLimit) :
    resolveChannels ctxChannel channels first_limit second_limit =
        ChannelScope.star ↔
      channels = some ChannelScope.star := by
  unfold resolveChannels
  rcases channels with _ | sc
  · rcases first_limit with _ | fl
    · rcases second_limit with _ | sl
      · simp
      · rcases sl with m | t <;> simp
    · rcases fl with m | t
      · simp
      · rcases second_limit with _ | sl
        · simp
        · rcases sl with m | t <;> simp
  · rcases sc with _ | l
    · simp
    · rcases l with _ | ⟨a, l⟩
      · rcases first_limit with _ | fl
        · rcases second_limit with _ | sl
          · simp
          · rcases sl with m | t <;> simp
        · rcases fl with m | t
          · simp
          · rcases second_limit with _ | sl
            · simp
            · rcases sl with m | t <;> simp
      · simp

/-- With valid arguments and no concurrent session, a `_clean_messages` run
records the normalized limits it built the predicate with, selects the
cache strategy exactly for `channels == "*" and use_cache`, and passes the
normalized limits as the `before`/`after` bounds of history fetches. -/
theorem _clean_messages_enum_shape (env : CleanEnv) (cl : Nat → Bool)
    (out : Nat → DelOutcome) (now : Nat) (args : CleanArgs)
    (hv : _validate_input env.messageLimit args.traverse args.channels
      args.bots_only args.users args.first_limit args.second_limit = none) :
    (_clean_messages env cl out now args false).limitsUsed =
        some (normalizeLimits (resolveLimit args.first_limit)
          (resolveLimit args.second_limit)) ∧
      ((_clean_messages env cl out now args false).enumCall =
          some (EnumCall.cache args.traverse) ↔
        args.channels = some ChannelScope.star ∧ args.use_cache = true) ∧
      (∀ tr chs bef aft,
        (_clean_messages env cl out now args false).enumCall =
            some (EnumCall.channels tr chs bef aft) →
          bef = (normalizeLimits (resolveLimit args.first_limit)
              (resolveLimit args.second_limit)).2 ∧
            aft = (normalizeLimits (resolveLimit args.first_limit)
              (resolveLimit args.second_limit)).1) := by
  unfold _clean_messages
  rw [hv]
  dsimp only
  rw [if_neg (by simp)]
  by_cases hs : (decide (resolveChannels env.ctxChannel args.channels
      args.first_limit args.second_limit = ChannelScope.star) &&
      args.use_cache) = true
  · rw [if_pos hs]
    rw [Bool.and_eq_true, decide_eq_true_eq] at hs
    refine ⟨cleanAfterEnum_limitsUsed _ _ _ _ _ _ _, ?_, ?_⟩
    · rw [cleanAfterEnum_enumCall]
      simp only [Option.some.injEq]
      constructor
      · intro _
        exact ⟨(resolveChannels_star _ _ _ _).mp hs.1, hs.2⟩
      · intro _
        trivial
    · intro tr chs bef aft h
      rw [cleanAfterEnum_enumCall] at h
      simp at h
  · rw [if_neg hs]
    refine ⟨cleanAfterEnum_limitsUsed _ _ _ _ _ _ _, ?_, ?_⟩
    · rw [cleanAfterEnum_enumCall]
      constructor
      · intro h
        simp at h
      · intro h
        exfalso
        apply hs
        rw [Bool.and_eq_true, decide_eq_true_eq]
        exact ⟨(resolveChannels_star _ _ _ _).mpr h.1, h.2⟩
    · intro tr chs bef aft h
      rw [cleanAfterEnum_enumCall] at h
      simp only [Option.some.injEq, EnumCall.channels.injEq] at h
      exact ⟨h.2.2.1.symm, h.2.2.2.symm⟩

/-- Claim C7: once a session passes the entry guard (the flag was clear on
entry), control never returns with the single-flight flag still set: normal
completion and cancellation clear it in `_clean_messages`, and a validation
error or a fatal enumeration/deletion error reaches `cog_command_error`,
which clears it. -/
theorem c7_flag_cleared_on_all_paths (env : CleanEnv) (cl : Nat → Bool)
    (out : Nat → DelOutcome) (now : Nat) (args : CleanArgs) :
    (clean_command_invoke env cl out now args false).finalCleaning = false := by
  have key : (_clean_messages env cl out now args false).finalCleaning = false ∨
      (_clean_messages env cl out now args false).result =
        CleanResult.fatalError ∨
      (_clean_messages env cl out now args false).result =
        CleanResult.invalid := by
    unfold _clean_messages
    cases hv : _validate_input env.messageLimit args.traverse args.channels
        args.bots_only args.users args.first_limit args.second_limit with
    | some e => right; right; rfl
    | none =>
      dsimp only
      rw [if_neg (by simp)]
      by_cases hs : (decide (resolveChannels env.ctxChannel args.channels
          args.first_limit args.second_limit = ChannelScope.star) &&
          args.use_cache) = true
      · rw [if_pos hs]
        rcases cleanAfterEnum_flag cl out now _ _ _ _ with h | h
        · left; exact h
        · right; left; exact h
      · rw [if_neg hs]
        rcases cleanAfterEnum_flag cl out now _ _ _ _ with h | h
        · left; exact h
        · right; left; exact h
  unfold clean_command_invoke
  rcases key with h | h | h
  · cases hr : (_clean_messages env cl out now args false).result <;>
      simp [hr, cog_command_error, h]
  · simp [h, cog_command_error]
  · simp [h, cog_command_error]

/-- Claim C6 (amended): while the flag is set, a second invocation whose
arguments pass validation is rejected with the wait notice, creates no
session and leaves the flag set; an invalid second invocation instead
raises `BadArgument` before the guard, and `cog_command_error` then clears
the running session's flag (see the counterexample). -/
theorem c6_second_invocation_amended (env : CleanEnv) (cl : Nat → Bool)
    (out : Nat → DelOutcome) (now : Nat) (args : CleanArgs)
    (hv : _validate_input env.messageLimit args.traverse args.channels
      args.bots_only args.users args.first_limit args.second_limit = none) :
    clean_command_invoke env cl out now args true =
      { result := CleanResult.rejected, finalCleaning := true,
        limitsUsed := none, enumCall := none } := by
  unfold clean_command_invoke _clean_messages
  rw [hv]
  rfl

/-- Witness for the amended C6: a concrete valid second invocation is
rejected and leaves the flag set. -/
theorem c6_second_invocation_amended_witness :
    _validate_input envTriv.messageLimit argsValidSimple.traverse
        argsValidSimple.channels argsValidSimple.bots_only
        argsValidSimple.users argsValidSimple.first_limit
        argsValidSimple.second_limit = none ∧
      clean_command_invoke envTriv (fun _ => true) (fun _ => DelOutcome.ok) 0
          argsValidSimple true =
        { result := CleanResult.rejected, finalCleaning := true,
          limitsUsed := none, enumCall := none } :=
  ⟨by decide,
    c6_second_invocation_amended envTriv (fun _ => true)
      (fun _ => DelOutcome.ok) 0 argsValidSimple (by decide)⟩

/-- Counterexample to C6 as stated: an invocation with invalid arguments
(`bots_only` plus a user list) while the flag is set does not produce the
rejection notice; its `BadArgument` reaches `cog_command_error`, which
clears the running session's single-flight flag. -/
theorem c6_second_invocation_counterexample :
    (clean_command_invoke envTriv (fun _ => true) (fun _ => DelOutcome.ok) 0
        argsInvalid true).finalCleaning = false ∧
      (clean_command_invoke envTriv (fun _ => true) (fun _ => DelOutcome.ok) 0
        argsInvalid true).result = CleanResult.invalid := by
  constructor <;> rfl

/-- Claim C8: with both limits supplied, the resolved pair is reordered so
that the first used limit is the minimum and the second the maximum, both
for the predicate (`limitsUsed`) and for the `before`/`after` bounds of
history fetches. -/
theorem c8_limit_swap (env : CleanEnv) (cl : Nat → Bool)
    (out : Nat → DelOutcome) (now : Nat) (args : CleanArgs)
    (l1 l2 : CleanLimit)
    (hv : _validate_input env.messageLimit args.traverse args.channels
      args.bots_only args.users args.first_limit args.second_limit = none)
    (h1 : args.first_limit = some l1) (h2 : args.second_limit = some l2) :
    ∃ a b : Nat,
      resolveLimit args.first_limit = some a ∧
        resolveLimit args.second_limit = some b ∧
        (clean_command_invoke env cl out now args false).limitsUsed =
          some (some (min a b), some (max a b)) ∧
        min a b ≤ max a b ∧
        ∀ tr chs bef aft,
          (clean_command_invoke env cl out now args false).enumCall =
              some (EnumCall.channels tr chs bef aft) →
            bef = some (max a b) ∧ aft = some (min a b) := by
  obtain ⟨a, ha⟩ : ∃ a, resolveLimit args.first_limit = some a := by
    rw [h1]; cases l1 <;> exact ⟨_, rfl⟩
  obtain ⟨b, hb⟩ : ∃ b, resolveLimit args.second_limit = some b := by
    rw [h2]; cases l2 <;> exact ⟨_, rfl⟩
  have hshape := _clean_messages_enum_shape env cl out now args hv
  have hnorm : normalizeLimits (resolveLimit args.first_limit)
      (resolveLimit args.second_limit) = (some (min a b), some (max a b)) := by
    rw [ha, hb]; rfl
  refine ⟨a, b, ha, hb, ?_, min_le_max, ?_⟩
  · rw [clean_command_invoke_limitsUsed, hshape.1, hnorm]
  · intro tr chs bef aft h
    rw [clean_command_invoke_enumCall] at h
    have := hshape.2.2 tr chs bef aft h
    rw [hnorm] at this
    exact ⟨this.1, this.2⟩

/-- Witness for C8 with concrete out-of-order bounds (10 then 5). -/
theorem c8_limit_swap_witness :
    _validate_input envTriv.messageLimit argsBothLimits.traverse
        argsBothLimits.channels argsBothLimits.bots_only argsBothLimits.users
        argsBothLimits.first_limit argsBothLimits.second_limit = none ∧
      ∃ a b : Nat,
        resolveLimit argsBothLimits.first_limit = some a ∧
          resolveLimit argsBothLimits.second_limit = some b ∧
          (clean_command_invoke envTriv (fun _ => true)
              (fun _ => DelOutcome.ok) 0 argsBothLimits false).limitsUsed =
            some (some (min a b), some (max a b)) ∧
          min a b ≤ max a b ∧
          ∀ tr chs bef aft,
            (clean_command_invoke envTriv (fun _ => true)
                (fun _ => DelOutcome.ok) 0 argsBothLimits false).enumCall =
                some (EnumCall.channels tr chs bef aft) →
              bef = some (max a b) ∧ aft = some (min a b) :=
  ⟨by decide,
    c8_limit_swap envTriv (fun _ => true) (fun _ => DelOutcome.ok) 0
      argsBothLimits (CleanLimit.time 10) (CleanLimit.time 5) (by decide) rfl rfl⟩

/-- Claim C10: the cache strategy is selected exactly when the channel
scope is the wildcard and `use_cache` holds; any other scope (including the
default invoking-channel scope) uses the history strategy even with
`use_cache`; and an unspecified `use_cache` defaults to true exactly for
the wildcard argument. -/
theorem c10_cache_strategy_selection (env : CleanEnv) (cl : Nat → Bool)
    (out : Nat → DelOutcome) (now : Nat) (args : CleanArgs)
    (hv : _validate_input env.messageLimit args.traverse args.channels
      args.bots_only args.users args.first_limit args.second_limit = none) :
    ((clean_command_invoke env cl out now args false).enumCall =
        some (EnumCall.cache args.traverse) ↔
      args.channels = some ChannelScope.star ∧ args.use_cache = true) ∧
      ∀ chs : Option ChannelScope,
        (clean_group_use_cache none chs = true ↔
          chs = some ChannelScope.star) := by
  constructor
  · rw [clean_command_invoke_enumCall]
    exact (_clean_messages_enum_shape env cl out now args hv).2.1
  · intro chs
    unfold clean_group_use_cache
    simp

/-- Witness for C10 at a concrete wildcard-plus-cache invocation. -/
theorem c10_cache_strategy_selection_witness :
    _validate_input envTriv.messageLimit argsStarCache.traverse
        argsStarCache.channels argsStarCache.bots_only argsStarCache.users
        argsStarCache.first_limit argsStarCache.second_limit = none ∧
      ((clean_command_invoke envTriv (fun _ => true) (fun _ => DelOutcome.ok)
            0 argsStarCache false).enumCall =
          some (EnumCall.cache argsStarCache.traverse) ↔
        argsStarCache.channels = some ChannelScope.star ∧
          argsStarCache.use_cache = true) :=
  ⟨by decide,
    (c10_cache_strategy_selection envTriv (fun _ => true)
      (fun _ => DelOutcome.ok) 0 argsStarCache (by decide)).1⟩

/-! ## Enumeration lemmas (C5) -/

/-- A cache scan whose flag oracle flips to `false` from the `i`-th read on
computes exactly what an uncancelled scan of the first `i` remaining
messages computes (accumulated matches are kept). -/
theorem cacheGo_cancel (p : Message → Bool) (i : Nat) :
    ∀ (ms : List Message) (mm : Mappings) (ids : List Nat) (c : Nat),
      (cacheGo (fun k => decide (k < i)) p ms mm ids c).1 =
        (cacheGo (fun _ => true) p (ms.take (i - c)) mm ids c).1 := by
  intro ms
  induction ms with
  | nil => intro mm ids c; simp [cacheGo]
  | cons m rest ih =>
    intro mm ids c
    by_cases hc : c < i
    · have hik : i - c = (i - (c + 1)) + 1 := by omega
      rw [hik, List.take_succ_cons]
      by_cases hp : p m = true
      · simp [cacheGo, hc, hp, ih]
      · simp [cacheGo, hc, hp, ih]
    · have h0 : i - c = 0 := by omega
      rw [h0, List.take_zero]
      simp [cacheGo, hc]

/-- If a channel scan has more messages to yield than flag reads remain
before the flip, it ends cancelled. -/
theorem histChanGo_cancel (p : Message → Bool) (i : Nat) :
    ∀ (evs : List HEvent) (mm : Mappings) (ids : List Nat) (c : Nat),
      noFail evs = true → i - c < countMsgs evs →
      ∃ c', histChanGo (fun k => decide (k < i)) p evs mm ids c =
        ChanScan.cancelled c' := by
  intro evs
  induction evs with
  | nil => intro mm ids c _ hcount; simp [countMsgs] at hcount
  | cons ev rest ih =>
    intro mm ids c hnf hcount
    cases ev with
    | fail => simp [noFail] at hnf
    | msg m =>
      by_cases hc : c < i
      · simp only [countMsgs] at hcount
        simp only [noFail] at hnf
        by_cases hp : p m = true
        · obtain ⟨c', h⟩ := ih (addToMapping mm m.channelId m) (ids ++ [m.id])
            (c + 1) hnf (by omega)
          exact ⟨c', by simp [histChanGo, hc, hp, h]⟩
        · obtain ⟨c', h⟩ := ih mm ids (c + 1) hnf (by omega)
          exact ⟨c', by simp [histChanGo, hc, hp, h]⟩
      · refine ⟨c + 1, ?_⟩
        simp [histChanGo, hc]

/-- If the flip comes at or after the end of a channel scan, the scan
completes having consumed one flag read per message. -/
theorem histChanGo_complete (p : Message → Bool) (i : Nat) :
    ∀ (evs : List HEvent) (mm : Mappings) (ids : List Nat) (c : Nat),
      noFail evs = true → countMsgs evs ≤ i - c →
      ∃ mm' ids', histChanGo (fun k => decide (k < i)) p evs mm ids c =
        ChanScan.scanned mm' ids' (c + countMsgs evs) := by
  intro evs
  induction evs with
  | nil => intro mm ids c _ _; exact ⟨mm, ids, by simp [histChanGo, countMsgs]⟩
  | cons ev rest ih =>
    intro mm ids c hnf hcount
    cases ev with
    | fail => simp [noFail] at hnf
    | msg m =>
      simp only [countMsgs] at hcount ⊢
      simp only [noFail] at hnf
      have hc : c < i := by omega
      have harith : ∀ n : Nat, c + 1 + n = c + (1 + n) := by omega
      by_cases hp : p m = true
      · obtain ⟨mm', ids', h⟩ := ih (addToMapping mm m.channelId m)
          (ids ++ [m.id]) (c + 1) hnf (by omega)
        rw [harith] at h
        exact ⟨mm', ids', by simp [histChanGo, hc, hp, h]⟩
      · obtain ⟨mm', ids', h⟩ := ih mm ids (c + 1) hnf (by omega)
        rw [harith] at h
        exact ⟨mm', ids', by simp [histChanGo, hc, hp, h]⟩

/-- A history enumeration cancelled mid-scan returns empty containers. -/
theorem histGo_cancel (p : Message → Bool) (i : Nat)
    (histories : Nat → Option Nat → Option Nat → List HEvent)
    (traverse : Nat) (before after : Option Nat) :
    ∀ (channels : List Nat) (mm : Mappings) (ids : List Nat) (c : Nat),
      (∀ ch ∈ channels,
        noFail (limitHist traverse (histories ch before after)) = true) →
      i - c < (channels.map (fun ch =>
        countMsgs (limitHist traverse (histories ch before after)))).sum →
      (histGo (fun k => decide (k < i)) p histories traverse before after
        channels mm ids c).res = Except.ok ([], []) := by
  intro channels
  induction channels with
  | nil => intro mm ids c _ hcount; simp at hcount
  | cons ch rest ih =>
    intro mm ids c hnf hcount
    simp only [List.map_cons, List.sum_cons] at hcount
    have hch := hnf ch (by simp)
    by_cases hcase :
        i - c < countMsgs (limitHist traverse (histories ch before after))
    · obtain ⟨c', h⟩ := histChanGo_cancel p i _ mm ids c hch hcase
      simp [histGo, h]
    · obtain ⟨mm', ids', h⟩ := histChanGo_complete p i _ mm ids c hch (by omega)
      simp only [histGo, h]
      exact ih mm' ids' _ (fun x hx => hnf x (by simp [hx])) (by omega)

/-- Claim C5: cancellation asymmetry of the two enumeration strategies.
With the flag oracle flipping at the `i`-th read, the cache strategy
returns exactly what an uncancelled scan of the messages seen before the
flip returns, while the history strategy, if the flip lands mid-scan,
returns an empty mapping and an empty id list. -/
theorem c5_enumeration_cancellation_asymmetry (p : Message → Bool)
    (cache : List Message) (traverse i : Nat)
    (histories : Nat → Option Nat → Option Nat → List HEvent)
    (channels : List Nat) (before after : Option Nat) :
    _get_messages_from_cache (fun k => decide (k < i)) traverse p cache =
        _get_messages_from_cache (fun _ => true) traverse p
          ((cache.take traverse).take i) ∧
      ((∀ ch ∈ channels,
          noFail (limitHist traverse (histories ch before after)) = true) →
        i < (channels.map (fun ch =>
          countMsgs (limitHist traverse (histories ch before after)))).sum →
        (_get_messages_from_channels (fun k => decide (k < i)) histories
          traverse channels p before after).res = Except.ok ([], [])) := by
  constructor
  · unfold _get_messages_from_cache
    rw [cacheGo_cancel]
    have hls : List.take traverse (List.take i (List.take traverse cache)) =
        List.take i (List.take traverse cache) := by
      refine List.take_of_length_le ?_
      rw [List.length_take, List.length_take]
      exact le_trans (min_le_right _ _) (min_le_left _ _)
    rw [Nat.sub_zero, hls]
  · intro hnf hi
    unfold _get_messages_from_channels
    exact histGo_cancel p i histories traverse before after channels [] [] 0
      hnf (by omega)

/-- Witness for C5: a two-message scan cancelled after one read. -/
theorem c5_enumeration_cancellation_asymmetry_witness :
    (_get_messages_from_cache (fun k => decide (k < 1)) 5 (fun _ => true)
        [mCache1, mCache2] =
      _get_messages_from_cache (fun _ => true) 5 (fun _ => true)
        (([mCache1, mCache2].take 5).take 1)) ∧
      (_get_messages_from_channels (fun k => decide (k < 1))
          (fun _ _ _ => [HEvent.msg mCache1, HEvent.msg mCache2]) 5 [7]
          (fun _ => true) none none).res = Except.ok ([], []) :=
  ⟨(c5_enumeration_cancellation_asymmetry (fun _ => true) [mCache1, mCache2]
      5 1 (fun _ _ _ => [HEvent.msg mCache1, HEvent.msg mCache2]) [7]
      none none).1,
    (c5_enumeration_cancellation_asymmetry (fun _ => true) [mCache1, mCache2]
      5 1 (fun _ _ _ => [HEvent.msg mCache1, HEvent.msg mCache2]) [7]
      none none).2 (by intro ch _; decide) (by decide)⟩

/-! ## Trace algebra -/

/-- Prepending no events is the identity. -/
theorem TraceOut.prepend_nil (o : TraceOut α) : TraceOut.prepend [] o = o := by
  cases o; simp [TraceOut.prepend]

/-- Prepending composes by concatenation. -/
theorem TraceOut.prepend_prepend (a b : List Event) (o : TraceOut α) :
    TraceOut.prepend a (TraceOut.prepend b o) = TraceOut.prepend (a ++ b) o := by
  cases o; simp [TraceOut.prepend]

/-- `bulkLists` distributes over concatenation. -/
theorem bulkLists_append (a b : List Event) :
    bulkLists (a ++ b) = bulkLists a ++ bulkLists b := by
  induction a with
  | nil => rfl
  | cons e rest ih => cases e <;> simp [bulkLists, ih]

/-- `indivList` distributes over concatenation. -/
theorem indivList_append (a b : List Event) :
    indivList (a ++ b) = indivList a ++ indivList b := by
  induction a with
  | nil => rfl
  | cons e rest ih => cases e <;> simp [indivList, ih]

/-- `deletedOfTrace` distributes over concatenation. -/
theorem deletedOfTrace_append (a b : List Event) :
    deletedOfTrace (a ++ b) = deletedOfTrace a ++ deletedOfTrace b := by
  induction a with
  | nil => rfl
  | cons e rest ih =>
    cases e with
    | checkCleaning v => simp [deletedOfTrace, ih]
    | bulkDelete ch msgs o => simp [deletedOfTrace, ih]
    | deleteOne m o => cases o <;> simp [deletedOfTrace, ih]

/-- `noCalls` over a concatenation. -/
theorem noCalls_append (a b : List Event) :
    noCalls (a ++ b) = (noCalls a && noCalls b) := by
  induction a with
  | nil => rfl
  | cons e rest ih => cases e <;> simp [noCalls, ih]

/-- `hasFalse` over a concatenation. -/
theorem hasFalse_append (a b : List Event) :
    hasFalse (a ++ b) = (hasFalse a || hasFalse b) := by
  induction a with
  | nil => rfl
  | cons e rest ih =>
    cases e with
    | checkCleaning v => cases v <;> simp [hasFalse, ih]
    | bulkDelete ch msgs o => simp [hasFalse, ih]
    | deleteOne m o => simp [hasFalse, ih]

/-- A trace with no calls at all is trivially call-free after any check. -/
theorem okTrace_of_noCalls (a : List Event) (h : noCalls a = true) :
    okTrace a = true := by
  induction a with
  | nil => rfl
  | cons e rest ih =>
    cases e with
    | checkCleaning v =>
      cases v with
      | false =>
        simp only [noCalls] at h
        simpa [okTrace] using h
      | true =>
        simp only [noCalls] at h
        simpa [okTrace] using ih h
    | bulkDelete ch msgs o => simp [noCalls] at h
    | deleteOne m o => simp [noCalls] at h

/-- Composition for `okTrace`: both halves must be clean and the second
half must be call-free when the first already read a `false` check. -/
theorem okTrace_append (a b : List Event) (ha : okTrace a = true)
    (hb : okTrace b = true) (hfb : hasFalse a = true → noCalls b = true) :
    okTrace (a ++ b) = true := by
  induction a with
  | nil => simpa using hb
  | cons e rest ih =>
    cases e with
    | checkCleaning v =>
      cases v with
      | false =>
        simp only [okTrace] at ha
        show okTrace (Event.checkCleaning false :: (rest ++ b)) = true
        simp only [okTrace]
        rw [noCalls_append, ha, hfb (by simp [hasFalse])]
        rfl
      | true =>
        simp only [okTrace] at ha
        simp only [List.cons_append, okTrace]
        exact ih ha (fun h => hfb (by simp [hasFalse, h]))
    | bulkDelete ch msgs o =>
      simp only [okTrace] at ha
      simp only [List.cons_append, okTrace]
      exact ih ha (fun h => hfb (by simp [hasFalse, h]))
    | deleteOne m o =>
      simp only [okTrace] at ha
      simp only [List.cons_append, okTrace]
      exact ih ha (fun h => hfb (by simp [hasFalse, h]))

/-! ## `fullChunks` facts -/

/-- A list shorter than the cap yields no full chunk. -/
theorem fullChunks_eq_nil (l : List Message) (h : l.length < 100) :
    fullChunks l = [] := by
  rw [fullChunks]
  simp [Nat.not_le.mpr h]

/-- Unfolding for a list at least as long as the cap. -/
theorem fullChunks_eq_cons (l : List Message) (h : 100 ≤ l.length) :
    fullChunks l = l.take 100 :: fullChunks (l.drop 100) := by
  rw [fullChunks]
  simp [h]

/-- The number of full chunks. -/
theorem fullChunks_length (l : List Message) :
    (fullChunks l).length = l.length / 100 := by
  induction l using fullChunks.induct with
  | case1 l h ih =>
    rw [fullChunks_eq_cons l h, List.length_cons, ih, List.length_drop]
    omega
  | case2 l h =>
    rw [fullChunks_eq_nil l (by omega)]
    simp
    omega

/-- Every full chunk has exactly 100 messages. -/
theorem fullChunks_mem_length (l : List Message) :
    ∀ cnk ∈ fullChunks l, cnk.length = 100 := by
  induction l using fullChunks.induct with
  | case1 l h ih =>
    rw [fullChunks_eq_cons l h]
    intro cnk hcnk
    rcases List.mem_cons.mp hcnk with hc | hc
    · subst hc
      rw [List.length_take]
      omega
    · exact ih cnk hc
  | case2 l h =>
    rw [fullChunks_eq_nil l (by omega)]
    intro cnk hcnk
    simp at hcnk

/-- The concatenation of the full chunks is the flushed prefix. -/
theorem fullChunks_join (l : List Message) :
    (fullChunks l).flatten = l.take (100 * (l.length / 100)) := by
  induction l using fullChunks.induct with
  | case1 l h ih =>
    rw [fullChunks_eq_cons l h]
    rw [List.flatten_cons, ih, List.length_drop]
    have harith : 100 * (l.length / 100) = 100 + 100 * ((l.length - 100) / 100) := by
      omega
    rw [harith, List.take_add]
  | case2 l h =>
    rw [fullChunks_eq_nil l (by omega)]
    have : l.length / 100 = 0 := by omega
    simp [this]

/-! ## Flag-oracle counters never decrease -/

/-- Individual deletion only advances the flag-read counter. -/
theorem indiv_c_mono (cl : Nat → Bool) (out : Nat → DelOutcome) :
    ∀ (ms d : List Message) (c k : Nat),
      c ≤ (_delete_messages_individually cl out ms d c k).c := by
  intro ms
  induction ms with
  | nil => intro d c k; simp [_delete_messages_individually]
  | cons m rest ih =>
    intro d c k
    by_cases hc : cl c = false
    · simp [_delete_messages_individually, hc]
    · cases ho : out k with
      | fatal => simp [_delete_messages_individually, hc, ho]
      | notFound =>
        simp only [_delete_messages_individually, hc, ho, if_false,
          TraceOut.prepend]
        exact le_trans (Nat.le_succ c) (ih _ _ _)
      | ok =>
        simp only [_delete_messages_individually, hc, ho, if_false,
          TraceOut.prepend]
        exact le_trans (Nat.le_succ c) (ih _ _ _)

/-- The scan loop only advances the flag-read counter. -/
theorem loop_c_mono (cl : Nat → Bool) (out : Nat → DelOutcome) (now ch : Nat) :
    ∀ (ms : List Message) (idx : Nat) (td d : List Message) (c k : Nat),
      c ≤ (delFoundLoop cl out now ch ms idx td d c k).c := by
  intro ms
  induction ms with
  | nil => intro idx td d c k; simp [delFoundLoop]
  | cons m rest ih =>
    intro idx td d c k
    by_cases hc : cl c = false
    · simp [delFoundLoop, hc]
    · by_cases hage : is_older_than_14d now m = true
      · simp [delFoundLoop, hc, hage]
      · by_cases hlen : (td ++ [m]).length = 100
        · by_cases hfat : out k = DelOutcome.fatal
          · simp [delFoundLoop, hc, hage, hlen, hfat]
          · simp only [delFoundLoop, hc, hage, hlen, hfat, if_false, if_true,
              Bool.false_eq_true, TraceOut.prepend]
            exact le_trans (Nat.le_succ c) (ih _ _ _ _ _)
        · simp only [delFoundLoop, hc, hage, hlen, if_false,
            Bool.false_eq_true, TraceOut.prepend]
          exact le_trans (Nat.le_succ c) (ih _ _ _ _ _)

/-- The post-flush phase only advances the flag-read counter. -/
theorem afterFlush_c_mono (cl : Nat → Bool) (out : Nat → DelOutcome)
    (msgs : List Message) (cut : Option Nat) (d : List Message) (c k : Nat) :
    c ≤ (delFoundAfterFlush cl out msgs cut d c k).c := by
  unfold delFoundAfterFlush
  by_cases hc : cl c = false
  · simp [hc]
  · simp only [hc, if_false, Bool.false_eq_true]
    cases cut with
    | none => simp
    | some ci =>
      dsimp only
      cases hres : (_delete_messages_individually cl out (msgs.drop ci) []
          (c + 1) k).res with
      | error e =>
        simp only [hres]
        exact le_trans (Nat.le_succ c) (indiv_c_mono cl out _ _ _ _)
      | ok dd =>
        simp only [hres]
        exact le_trans (Nat.le_succ c) (indiv_c_mono cl out _ _ _ _)

/-- The post-loop phase only advances the flag-read counter. -/
theorem afterLoop_c_mono (cl : Nat → Bool) (out : Nat → DelOutcome) (ch : Nat)
    (msgs : List Message) (cut : Option Nat) (td d : List Message) (c k : Nat) :
    c ≤ (delFoundAfterLoop cl out ch msgs cut td d c k).c := by
  unfold delFoundAfterLoop
  by_cases hc : cl c = false
  · simp [hc]
  · simp only [hc, if_false, Bool.false_eq_true]
    cases td with
    | nil =>
      simp only [TraceOut.prepend]
      exact le_trans (Nat.le_succ c) (afterFlush_c_mono cl out msgs cut d (c + 1) k)
    | cons t ts =>
      by_cases hfat : out k = DelOutcome.fatal
      · simp [hfat]
      · simp only [hfat, if_false, TraceOut.prepend]
        exact le_trans (Nat.le_succ c)
          (afterFlush_c_mono cl out msgs cut (d ++ t :: ts) (c + 1) (k + 1))

/-- One channel's processing only advances the flag-read counter. -/
theorem chan_c_mono (cl : Nat → Bool) (out : Nat → DelOutcome) (now ch : Nat)
    (msgs d : List Message) (c k : Nat) :
    c ≤ (delFoundChannel cl out now ch msgs d c k).c := by
  unfold delFoundChannel
  dsimp only
  cases hres : (delFoundLoop cl out now ch msgs 0 [] d c k).res with
  | cancelled dd => simp only [hres]; exact loop_c_mono cl out now ch _ _ _ _ _ _
  | fatal => simp only [hres]; exact loop_c_mono cl out now ch _ _ _ _ _ _
  | broke cut td dd =>
    simp only [hres, TraceOut.prepend]
    exact le_trans (loop_c_mono cl out now ch _ _ _ _ _ _)
      (afterLoop_c_mono cl out ch msgs (some cut) td dd _ _)
  | done td dd =>
    simp only [hres, TraceOut.prepend]
    exact le_trans (loop_c_mono cl out now ch _ _ _ _ _ _)
      (afterLoop_c_mono cl out ch msgs none td dd _ _)

/-- The whole deletion pass only advances the flag-read counter. -/
theorem go_c_mono (cl : Nat → Bool) (out : Nat → DelOutcome) (now : Nat) :
    ∀ (mappings : List (Nat × List Message)) (d : List Message) (c k : Nat),
      c ≤ (delFoundGo cl out now mappings d c k).c := by
  intro mappings
  induction mappings with
  | nil => intro d c k; simp [delFoundGo]
  | cons p rest ih =>
    intro d c k
    rcases p with ⟨ch, msgs⟩
    unfold delFoundGo
    dsimp only
    cases hres : (delFoundChannel cl out now ch msgs d c k).res with
    | earlyRet dd => simp only [hres]; exact chan_c_mono cl out now ch _ _ _ _
    | fatal => simp only [hres]; exact chan_c_mono cl out now ch _ _ _ _
    | next dd =>
      simp only [hres, TraceOut.prepend]
      exact le_trans (chan_c_mono cl out now ch _ _ _ _) (ih _ _ _)

/-! ## The returned list is exactly what the trace's calls deleted -/

/-- Individual deletion: the returned list extends the accumulator by the
successfully deleted messages of its trace. -/
theorem indiv_deleted (cl : Nat → Bool) (out : Nat → DelOutcome) :
    ∀ (ms d : List Message) (c k : Nat) (dd : List Message),
      (_delete_messages_individually cl out ms d c k).res = Except.ok dd →
      dd = d ++ deletedOfTrace (_delete_messages_individually cl out ms d c k).tr := by
  intro ms
  induction ms with
  | nil =>
    intro d c k dd h
    simp only [_delete_messages_individually, Except.ok.injEq] at h
    simp [_delete_messages_individually, deletedOfTrace, ← h]
  | cons m rest ih =>
    intro d c k dd h
    by_cases hc : cl c = false
    · simp only [_delete_messages_individually, hc, if_true,
        Except.ok.injEq] at h
      simp [_delete_messages_individually, hc, deletedOfTrace, ← h]
    · cases ho : out k with
      | fatal =>
        simp only [_delete_messages_individually, hc, ho, if_false,
          Bool.false_eq_true] at h
        cases h
      | notFound =>
        simp only [_delete_messages_individually, hc, ho, if_false,
          Bool.false_eq_true, TraceOut.prepend] at h ⊢
        rw [ih _ _ _ _ h]
        simp [deletedOfTrace]
      | ok =>
        simp only [_delete_messages_individually, hc, ho, if_false,
          Bool.false_eq_true, TraceOut.prepend] at h ⊢
        rw [ih _ _ _ _ h]
        simp [deletedOfTrace]

/-- The scan loop: any non-fatal exit carries the accumulator extended by
the messages its trace's calls deleted. -/
theorem loop_deleted (cl : Nat → Bool) (out : Nat → DelOutcome) (now ch : Nat) :
    ∀ (ms : List Message) (idx : Nat) (td d : List Message) (c k : Nat)
      (dd : List Message),
      (delFoundLoop cl out now ch ms idx td d c k).res.acc = some dd →
      dd = d ++ deletedOfTrace (delFoundLoop cl out now ch ms idx td d c k).tr := by
  intro ms
  induction ms with
  | nil =>
    intro idx td d c k dd h
    simp only [delFoundLoop, LoopRes.acc, Option.some.injEq] at h
    simp [delFoundLoop, deletedOfTrace, ← h]
  | cons m rest ih =>
    intro idx td d c k dd h
    by_cases hc : cl c = false
    · simp only [delFoundLoop, hc, if_true, LoopRes.acc,
        Option.some.injEq] at h
      simp [delFoundLoop, hc, deletedOfTrace, ← h]
    · by_cases hage : is_older_than_14d now m = true
      · simp [delFoundLoop, hc, hage, LoopRes.acc] at h
        subst h
        simp [delFoundLoop, hc, hage, deletedOfTrace]
      · by_cases hlen : (td ++ [m]).length = 100
        · by_cases hfat : out k = DelOutcome.fatal
          · simp [delFoundLoop, hc, hage, hlen, hfat, LoopRes.acc] at h
          · simp only [delFoundLoop, hc, hage, hlen, hfat, if_false, if_true,
              Bool.false_eq_true, TraceOut.prepend] at h ⊢
            rw [ih _ _ _ _ _ _ h]
            simp [deletedOfTrace]
        · simp only [delFoundLoop, hc, hage, hlen, if_false,
            Bool.false_eq_true, TraceOut.prepend] at h ⊢
          rw [ih _ _ _ _ _ _ h]
          simp [deletedOfTrace]

/-- The post-flush phase: same accumulator invariant. -/
theorem afterFlush_deleted (cl : Nat → Bool) (out : Nat → DelOutcome)
    (msgs : List Message) (cut : Option Nat) (d : List Message) (c k : Nat)
    (dd : List Message)
    (h : (delFoundAfterFlush cl out msgs cut d c k).res.acc = some dd) :
    dd = d ++ deletedOfTrace (delFoundAfterFlush cl out msgs cut d c k).tr := by
  unfold delFoundAfterFlush at h ⊢
  by_cases hc : cl c = false
  · simp only [hc, if_true, ChanRes.acc, Option.some.injEq] at h
    simp [hc, deletedOfTrace, ← h]
  · simp only [hc, if_false, Bool.false_eq_true, Bool.true_eq_false] at h ⊢
    cases cut with
    | none =>
      simp [ChanRes.acc] at h
      subst h
      simp [deletedOfTrace]
    | some ci =>
      dsimp only at h ⊢
      cases hres : (_delete_messages_individually cl out (msgs.drop ci) []
          (c + 1) k).res with
      | error e => simp [hres, ChanRes.acc] at h
      | ok ddv =>
        simp only [hres, ChanRes.acc, Option.some.injEq] at h
        have := indiv_deleted cl out (msgs.drop ci) [] (c + 1) k ddv hres
        simp only [List.nil_append] at this
        simp [← h, this, deletedOfTrace]

/-- The post-loop phase: same accumulator invariant. -/
theorem afterLoop_deleted (cl : Nat → Bool) (out : Nat → DelOutcome) (ch : Nat)
    (msgs : List Message) (cut : Option Nat) (td d : List Message) (c k : Nat)
    (dd : List Message)
    (h : (delFoundAfterLoop cl out ch msgs cut td d c k).res.acc = some dd) :
    dd = d ++ deletedOfTrace (delFoundAfterLoop cl out ch msgs cut td d c k).tr := by
  unfold delFoundAfterLoop at h ⊢
  by_cases hc : cl c = false
  · simp only [hc, if_true, ChanRes.acc, Option.some.injEq] at h
    simp [hc, deletedOfTrace, ← h]
  · simp only [hc, if_false, Bool.false_eq_true] at h ⊢
    cases td with
    | nil =>
      simp only [TraceOut.prepend] at h ⊢
      rw [afterFlush_deleted cl out msgs cut d (c + 1) k dd h]
      simp [deletedOfTrace]
    | cons t ts =>
      by_cases hfat : out k = DelOutcome.fatal
      · simp [hfat, ChanRes.acc] at h
      · simp only [hfat, if_false, TraceOut.prepend] at h ⊢
        rw [afterFlush_deleted cl out msgs cut (d ++ t :: ts) (c + 1) (k + 1) dd h]
        simp [deletedOfTrace]

/-- One channel: same accumulator invariant. -/
theorem chan_deleted (cl : Nat → Bool) (out : Nat → DelOutcome) (now ch : Nat)
    (msgs d : List Message) (c k : Nat) (dd : List Message)
    (h : (delFoundChannel cl out now ch msgs d c k).res.acc = some dd) :
    dd = d ++ deletedOfTrace (delFoundChannel cl out now ch msgs d c k).tr := by
  unfold delFoundChannel at h ⊢
  dsimp only at h ⊢
  cases hres : (delFoundLoop cl out now ch msgs 0 [] d c k).res with
  | cancelled dL =>
    simp only [hres, ChanRes.acc, Option.some.injEq] at h
    have := loop_deleted cl out now ch msgs 0 [] d c k dL (by rw [hres]; rfl)
    simp [hres, ← h, this]
  | fatal => simp [hres, ChanRes.acc] at h
  | broke cut td dL =>
    simp only [hres, TraceOut.prepend] at h ⊢
    have hL := loop_deleted cl out now ch msgs 0 [] d c k dL (by rw [hres]; rfl)
    rw [afterLoop_deleted cl out ch msgs (some cut) td dL _ _ dd h, hL]
    simp [deletedOfTrace_append]
  | done td dL =>
    simp only [hres, TraceOut.prepend] at h ⊢
    have hL := loop_deleted cl out now ch msgs 0 [] d c k dL (by rw [hres]; rfl)
    rw [afterLoop_deleted cl out ch msgs none td dL _ _ dd h, hL]
    simp [deletedOfTrace_append]

/-- The whole pass: a successful return is the accumulator extended by the
messages the trace's calls deleted. -/
theorem go_deleted (cl : Nat → Bool) (out : Nat → DelOutcome) (now : Nat) :
    ∀ (mappings : List (Nat × List Message)) (d : List Message) (c k : Nat)
      (dd : List Message),
      (delFoundGo cl out now mappings d c k).res = Except.ok dd →
      dd = d ++ deletedOfTrace (delFoundGo cl out now mappings d c k).tr := by
  intro mappings
  induction mappings with
  | nil =>
    intro d c k dd h
    simp only [delFoundGo, Except.ok.injEq] at h
    simp [delFoundGo, deletedOfTrace, ← h]
  | cons p rest ih =>
    intro d c k dd h
    rcases p with ⟨ch, msgs⟩
    unfold delFoundGo at h ⊢
    dsimp only at h ⊢
    cases hres : (delFoundChannel cl out now ch msgs d c k).res with
    | earlyRet dd' =>
      simp only [hres, Except.ok.injEq] at h
      have := chan_deleted cl out now ch msgs d c k dd' (by rw [hres]; rfl)
      simp [hres, ← h, this]
    | fatal => simp [hres] at h
    | next dd' =>
      simp only [hres, TraceOut.prepend] at h ⊢
      have hch := chan_deleted cl out now ch msgs d c k dd' (by rw [hres]; rfl)
      rw [ih _ _ _ _ h, hch]
      simp [deletedOfTrace_append]

/-! ## No calls once the flag reads false -/

/-- With the flag false from the start, individual deletion issues no call. -/
theorem indiv_noCalls (cl : Nat → Bool) (out : Nat → DelOutcome)
    (ms d : List Message) (c k : Nat) (hall : ∀ j, c ≤ j → cl j = false) :
    noCalls (_delete_messages_individually cl out ms d c k).tr = true := by
  cases ms with
  | nil => simp [_delete_messages_individually, noCalls]
  | cons m rest =>
    simp [_delete_messages_individually, hall c le_rfl, noCalls]

/-- With the flag false from the start, the scan loop issues no call. -/
theorem loop_noCalls (cl : Nat → Bool) (out : Nat → DelOutcome) (now ch : Nat)
    (ms : List Message) (idx : Nat) (td d : List Message) (c k : Nat)
    (hall : ∀ j, c ≤ j → cl j = false) :
    noCalls (delFoundLoop cl out now ch ms idx td d c k).tr = true := by
  cases ms with
  | nil => simp [delFoundLoop, noCalls]
  | cons m rest => simp [delFoundLoop, hall c le_rfl, noCalls]

/-- With the flag false from the start, the post-flush phase issues no call. -/
theorem afterFlush_noCalls (cl : Nat → Bool) (out : Nat → DelOutcome)
    (msgs : List Message) (cut : Option Nat) (d : List Message) (c k : Nat)
    (hall : ∀ j, c ≤ j → cl j = false) :
    noCalls (delFoundAfterFlush cl out msgs cut d c k).tr = true := by
  simp [delFoundAfterFlush, hall c le_rfl, noCalls]

/-- With the flag false from the start, the post-loop phase issues no call. -/
theorem afterLoop_noCalls (cl : Nat → Bool) (out : Nat → DelOutcome) (ch : Nat)
    (msgs : List Message) (cut : Option Nat) (td d : List Message) (c k : Nat)
    (hall : ∀ j, c ≤ j → cl j = false) :
    noCalls (delFoundAfterLoop cl out ch msgs cut td d c k).tr = true := by
  simp [delFoundAfterLoop, hall c le_rfl, noCalls]

/-- With the flag false from the start, a channel issues no call. -/
theorem chan_noCalls (cl : Nat → Bool) (out : Nat → DelOutcome) (now ch : Nat)
    (msgs d : List Message) (c k : Nat)
    (hall : ∀ j, c ≤ j → cl j = false) :
    noCalls (delFoundChannel cl out now ch msgs d c k).tr = true := by
  unfold delFoundChannel
  dsimp only
  cases hres : (delFoundLoop cl out now ch msgs 0 [] d c k).res with
  | cancelled dd =>
    simp only [hres]
    exact loop_noCalls cl out now ch msgs 0 [] d c k hall
  | fatal =>
    simp only [hres]
    exact loop_noCalls cl out now ch msgs 0 [] d c k hall
  | broke cut td dd =>
    simp only [hres, TraceOut.prepend]
    rw [noCalls_append, loop_noCalls cl out now ch msgs 0 [] d c k hall,
      afterLoop_noCalls cl out ch msgs (some cut) td dd _ _
        (fun j hj => hall j (le_trans (loop_c_mono cl out now ch msgs 0 [] d c k) hj))]
    rfl
  | done td dd =>
    simp only [hres, TraceOut.prepend]
    rw [noCalls_append, loop_noCalls cl out now ch msgs 0 [] d c k hall,
      afterLoop_noCalls cl out ch msgs none td dd _ _
        (fun j hj => hall j (le_trans (loop_c_mono cl out now ch msgs 0 [] d c k) hj))]
    rfl

/-- With the flag false from the start, the whole pass issues no call. -/
theorem go_noCalls (cl : Nat → Bool) (out : Nat → DelOutcome) (now : Nat) :
    ∀ (mappings : List (Nat × List Message)) (d : List Message) (c k : Nat),
      (∀ j, c ≤ j → cl j = false) →
      noCalls (delFoundGo cl out now mappings d c k).tr = true := by
  intro mappings
  induction mappings with
  | nil => intro d c k _; simp [delFoundGo, noCalls]
  | cons p rest ih =>
    intro d c k hall
    rcases p with ⟨ch, msgs⟩
    unfold delFoundGo
    dsimp only
    cases hres : (delFoundChannel cl out now ch msgs d c k).res with
    | earlyRet dd =>
      simp only [hres]
      exact chan_noCalls cl out now ch msgs d c k hall
    | fatal =>
      simp only [hres]
      exact chan_noCalls cl out now ch msgs d c k hall
    | next dd =>
      simp only [hres, TraceOut.prepend]
      rw [noCalls_append, chan_noCalls cl out now ch msgs d c k hall,
        ih dd _ _
          (fun j hj => hall j (le_trans (chan_c_mono cl out now ch msgs d c k) hj))]
      rfl

/-! ## Clean traces under an antitone flag -/

/-- Individual deletion: the trace has no call after a false check, and a
false check pins the flag false at the end counter. -/
theorem indiv_okTrace (cl : Nat → Bool) (out : Nat → DelOutcome)
    (haf : ∀ i j, i ≤ j → cl i = false → cl j = false) :
    ∀ (ms d : List Message) (c k : Nat),
      okTrace (_delete_messages_individually cl out ms d c k).tr = true ∧
        (hasFalse (_delete_messages_individually cl out ms d c k).tr = true →
          cl (_delete_messages_individually cl out ms d c k).c = false) := by
  intro ms
  induction ms with
  | nil => intro d c k; simp [_delete_messages_individually, okTrace, hasFalse]
  | cons m rest ih =>
    intro d c k
    by_cases hc : cl c = false
    · constructor
      · simp [_delete_messages_individually, hc, okTrace, noCalls]
      · intro _
        simp only [_delete_messages_individually, hc, if_true]
        exact haf c (c + 1) (Nat.le_succ c) hc
    · cases ho : out k with
      | fatal =>
        simp [_delete_messages_individually, hc, ho, okTrace, hasFalse]
      | notFound =>
        simp only [_delete_messages_individually, hc, ho, if_false,
          Bool.false_eq_true, TraceOut.prepend]
        constructor
        · simp only [List.cons_append, List.nil_append, okTrace]
          exact (ih d (c + 1) (k + 1)).1
        · simp only [List.cons_append, List.nil_append, hasFalse]
          exact (ih d (c + 1) (k + 1)).2
      | ok =>
        simp only [_delete_messages_individually, hc, ho, if_false,
          Bool.false_eq_true, TraceOut.prepend]
        constructor
        · simp only [List.cons_append, List.nil_append, okTrace]
          exact (ih (d ++ [m]) (c + 1) (k + 1)).1
        · simp only [List.cons_append, List.nil_append, hasFalse]
          exact (ih (d ++ [m]) (c + 1) (k + 1)).2

/-- The scan loop: same trace cleanliness. -/
theorem loop_okTrace (cl : Nat → Bool) (out : Nat → DelOutcome) (now ch : Nat)
    (haf : ∀ i j, i ≤ j → cl i = false → cl j = false) :
    ∀ (ms : List Message) (idx : Nat) (td d : List Message) (c k : Nat),
      okTrace (delFoundLoop cl out now ch ms idx td d c k).tr = true ∧
        (hasFalse (delFoundLoop cl out now ch ms idx td d c k).tr = true →
          cl (delFoundLoop cl out now ch ms idx td d c k).c = false) := by
  intro ms
  induction ms with
  | nil => intro idx td d c k; simp [delFoundLoop, okTrace, hasFalse]
  | cons m rest ih =>
    intro idx td d c k
    by_cases hc : cl c = false
    · constructor
      · simp [delFoundLoop, hc, okTrace, noCalls]
      · intro _
        simp only [delFoundLoop, hc, if_true]
        exact haf c (c + 1) (Nat.le_succ c) hc
    · by_cases hage : is_older_than_14d now m = true
      · simp [delFoundLoop, hc, hage, okTrace, hasFalse]
      · by_cases hlen : (td ++ [m]).length = 100
        · by_cases hfat : out k = DelOutcome.fatal
          · simp [delFoundLoop, hc, hage, hlen, hfat, okTrace, hasFalse]
          · simp only [delFoundLoop, hc, hage, hlen, hfat, if_false, if_true,
              Bool.false_eq_true, TraceOut.prepend]
            constructor
            · simp only [List.cons_append, List.nil_append, okTrace]
              exact (ih (idx + 1) [] (d ++ (td ++ [m])) (c + 1) (k + 1)).1
            · simp only [List.cons_append, List.nil_append, hasFalse]
              exact (ih (idx + 1) [] (d ++ (td ++ [m])) (c + 1) (k + 1)).2
        · simp only [delFoundLoop, hc, hage, hlen, if_false,
            Bool.false_eq_true, TraceOut.prepend]
          constructor
          · simp only [List.cons_append, List.nil_append, okTrace]
            exact (ih (idx + 1) (td ++ [m]) d (c + 1) k).1
          · simp only [List.cons_append, List.nil_append, hasFalse]
            exact (ih (idx + 1) (td ++ [m]) d (c + 1) k).2

/-- The post-flush phase: same trace cleanliness. -/
theorem afterFlush_okTrace (cl : Nat → Bool) (out : Nat → DelOutcome)
    (haf : ∀ i j, i ≤ j → cl i = false → cl j = false)
    (msgs : List Message) (cut : Option Nat) (d : List Message) (c k : Nat) :
    okTrace (delFoundAfterFlush cl out msgs cut d c k).tr = true ∧
      (hasFalse (delFoundAfterFlush cl out msgs cut d c k).tr = true →
        cl (delFoundAfterFlush cl out msgs cut d c k).c = false) := by
  unfold delFoundAfterFlush
  by_cases hc : cl c = false
  · constructor
    · simp [hc, okTrace, noCalls]
    · intro _
      simp only [hc, if_true]
      exact haf c (c + 1) (Nat.le_succ c) hc
  · simp only [hc, if_false, Bool.false_eq_true]
    cases cut with
    | none => simp [okTrace, hasFalse]
    | some ci =>
      dsimp only
      cases hres : (_delete_messages_individually cl out (msgs.drop ci) []
          (c + 1) k).res with
      | error e =>
        simp only [hres]
        constructor
        · simp only [okTrace]
          exact (indiv_okTrace cl out haf (msgs.drop ci) [] (c + 1) k).1
        · simp only [hasFalse]
          exact (indiv_okTrace cl out haf (msgs.drop ci) [] (c + 1) k).2
      | ok ddv =>
        simp only [hres]
        constructor
        · simp only [okTrace]
          exact (indiv_okTrace cl out haf (msgs.drop ci) [] (c + 1) k).1
        · simp only [hasFalse]
          exact (indiv_okTrace cl out haf (msgs.drop ci) [] (c + 1) k).2

/-- The post-loop phase: same trace cleanliness. -/
theorem afterLoop_okTrace (cl : Nat → Bool) (out : Nat → DelOutcome)
    (haf : ∀ i j, i ≤ j → cl i = false → cl j = false) (ch : Nat)
    (msgs : List Message) (cut : Option Nat) (td d : List Message) (c k : Nat) :
    okTrace (delFoundAfterLoop cl out ch msgs cut td d c k).tr = true ∧
      (hasFalse (delFoundAfterLoop cl out ch msgs cut td d c k).tr = true →
        cl (delFoundAfterLoop cl out ch msgs cut td d c k).c = false) := by
  unfold delFoundAfterLoop
  by_cases hc : cl c = false
  · constructor
    · simp [hc, okTrace, noCalls]
    · intro _
      simp only [hc, if_true]
      exact haf c (c + 1) (Nat.le_succ c) hc
  · simp only [hc, if_false, Bool.false_eq_true]
    cases td with
    | nil =>
      simp only [TraceOut.prepend]
      constructor
      · simp only [List.cons_append, List.nil_append, okTrace]
        exact (afterFlush_okTrace cl out haf msgs cut d (c + 1) k).1
      · simp only [List.cons_append, List.nil_append, hasFalse]
        exact (afterFlush_okTrace cl out haf msgs cut d (c + 1) k).2
    | cons t ts =>
      by_cases hfat : out k = DelOutcome.fatal
      · simp [hfat, okTrace, hasFalse]
      · simp only [hfat, if_false, TraceOut.prepend]
        constructor
        · simp only [List.cons_append, List.nil_append, okTrace]
          exact (afterFlush_okTrace cl out haf msgs cut (d ++ t :: ts)
            (c + 1) (k + 1)).1
        · simp only [List.cons_append, List.nil_append, hasFalse]
          exact (afterFlush_okTrace cl out haf msgs cut (d ++ t :: ts)
            (c + 1) (k + 1)).2

/-- One channel: same trace cleanliness. -/
theorem chan_okTrace (cl : Nat → Bool) (out : Nat → DelOutcome)
    (haf : ∀ i j, i ≤ j → cl i = false → cl j = false) (now ch : Nat)
    (msgs d : List Message) (c k : Nat) :
    okTrace (delFoundChannel cl out now ch msgs d c k).tr = true ∧
      (hasFalse (delFoundChannel cl out now ch msgs d c k).tr = true →
        cl (delFoundChannel cl out now ch msgs d c k).c = false) := by
  unfold delFoundChannel
  dsimp only
  cases hres : (delFoundLoop cl out now ch msgs 0 [] d c k).res with
  | cancelled dd =>
    simp only [hres]
    exact ⟨(loop_okTrace cl out now ch haf msgs 0 [] d c k).1,
      (loop_okTrace cl out now ch haf msgs 0 [] d c k).2⟩
  | fatal =>
    simp only [hres]
    exact ⟨(loop_okTrace cl out now ch haf msgs 0 [] d c k).1,
      (loop_okTrace cl out now ch haf msgs 0 [] d c k).2⟩
  | broke cut td dd =>
    simp only [hres, TraceOut.prepend]
    have hst := loop_okTrace cl out now ch haf msgs 0 [] d c k
    have hal := afterLoop_okTrace cl out haf ch msgs (some cut) td dd
      (delFoundLoop cl out now ch msgs 0 [] d c k).c
      (delFoundLoop cl out now ch msgs 0 [] d c k).k
    constructor
    · refine okTrace_append _ _ hst.1 hal.1 ?_
      intro hf
      exact afterLoop_noCalls cl out ch msgs (some cut) td dd _ _
        (fun j hj => haf _ j hj (hst.2 hf))
    · intro hf
      rw [hasFalse_append, Bool.or_eq_true] at hf
      rcases hf with hf | hf
      · exact haf _ _ (afterLoop_c_mono cl out ch msgs (some cut) td dd _ _)
          (hst.2 hf)
      · exact hal.2 hf
  | done td dd =>
    simp only [hres, TraceOut.prepend]
    have hst := loop_okTrace cl out now ch haf msgs 0 [] d c k
    have hal := afterLoop_okTrace cl out haf ch msgs none td dd
      (delFoundLoop cl out now ch msgs 0 [] d c k).c
      (delFoundLoop cl out now ch msgs 0 [] d c k).k
    constructor
    · refine okTrace_append _ _ hst.1 hal.1 ?_
      intro hf
      exact afterLoop_noCalls cl out ch msgs none td dd _ _
        (fun j hj => haf _ j hj (hst.2 hf))
    · intro hf
      rw [hasFalse_append, Bool.or_eq_true] at hf
      rcases hf with hf | hf
      · exact haf _ _ (afterLoop_c_mono cl out ch msgs none td dd _ _)
          (hst.2 hf)
      · exact hal.2 hf

/-- The whole pass: same trace cleanliness. -/
theorem go_okTrace (cl : Nat → Bool) (out : Nat → DelOutcome)
    (haf : ∀ i j, i ≤ j → cl i = false → cl j = false) (now : Nat) :
    ∀ (mappings : List (Nat × List Message)) (d : List Message) (c k : Nat),
      okTrace (delFoundGo cl out now mappings d c k).tr = true ∧
        (hasFalse (delFoundGo cl out now mappings d c k).tr = true →
          cl (delFoundGo cl out now mappings d c k).c = false) := by
  intro mappings
  induction mappings with
  | nil => intro d c k; simp [delFoundGo, okTrace, hasFalse]
  | cons p rest ih =>
    intro d c k
    rcases p with ⟨ch, msgs⟩
    unfold delFoundGo
    dsimp only
    cases hres : (delFoundChannel cl out now ch msgs d c k).res with
    | earlyRet dd =>
      simp only [hres]
      exact ⟨(chan_okTrace cl out haf now ch msgs d c k).1,
        (chan_okTrace cl out haf now ch msgs d c k).2⟩
    | fatal =>
      simp only [hres]
      exact ⟨(chan_okTrace cl out haf now ch msgs d c k).1,
        (chan_okTrace cl out haf now ch msgs d c k).2⟩
    | next dd =>
      simp only [hres, TraceOut.prepend]
      have hco := chan_okTrace cl out haf now ch msgs d c k
      have hgo := ih dd (delFoundChannel cl out now ch msgs d c k).c
        (delFoundChannel cl out now ch msgs d c k).k
      constructor
      · refine okTrace_append _ _ hco.1 hgo.1 ?_
        intro hf
        exact go_noCalls cl out now rest dd _ _
          (fun j hj => haf _ j hj (hco.2 hf))
      · intro hf
        rw [hasFalse_append, Bool.or_eq_true] at hf
        rcases hf with hf | hf
        · exact haf _ _ (go_c_mono cl out now rest dd _ _) (hco.2 hf)
        · exact hgo.2 hf

/-- Claim C4: with the cleaning flag only ever flipping to false (antitone
oracle), a deletion pass that returns normally returns exactly the
messages its trace's delete calls removed, in trace (source) order, and
its trace contains no bulk or individual delete call after any flag check
that read false — once the flag flips, no further calls are issued and the
accumulated result is returned as is. -/
theorem c4_cancellation_mid_deletion (cl : Nat → Bool) (out : Nat → DelOutcome)
    (now : Nat) (mappings : List (Nat × List Message)) (d : List Message)
    (haf : ∀ i j, i ≤ j → cl i = false → cl j = false)
    (hres : (_delete_found cl out now mappings).res = Except.ok d) :
    d = deletedOfTrace (_delete_found cl out now mappings).tr ∧
      okTrace (_delete_found cl out now mappings).tr = true := by
  constructor
  · have := go_deleted cl out now mappings [] 0 0 d hres
    simpa using this
  · exact (go_okTrace cl out haf now mappings [] 0 0).1

/-- Witness for C4: one channel, one eligible message, the flag flipping
after the leftover flush; the pass returns the flushed message. -/
theorem c4_cancellation_mid_deletion_witness :
    [mYoung] =
        deletedOfTrace (_delete_found (fun j => decide (j < 2))
          (fun _ => DelOutcome.ok) nowCE [(1, [mYoung])]).tr ∧
      okTrace (_delete_found (fun j => decide (j < 2))
        (fun _ => DelOutcome.ok) nowCE [(1, [mYoung])]).tr = true :=
  c4_cancellation_mid_deletion (fun j => decide (j < 2))
    (fun _ => DelOutcome.ok) nowCE [(1, [mYoung])] [mYoung]
    (by
      intro i j hij h
      simp only [decide_eq_false_iff_not, Nat.not_lt] at h ⊢
      omega)
    rfl

/-! ## The scan loop over bulk-eligible messages -/

/-- Running the scan loop over a block of bulk-eligible messages (flag set
throughout, no fatal outcome) flushes exactly the complete 100-batches of
`td ++ ms1` as bulk calls, carries the flushed prefix into `deleted`, keeps
the remainder pending, and continues with the rest of the list. -/
theorem delFoundLoop_append_elig (cl : Nat → Bool) (out : Nat → DelOutcome)
    (now ch : Nat) (hcl : ∀ n, cl n = true)
    (hout : ∀ n, out n ≠ DelOutcome.fatal) :
    ∀ (ms1 ms2 : List Message) (idx : Nat) (td d : List Message) (c k : Nat),
      td.length < 100 →
      (∀ m ∈ ms1, is_older_than_14d now m = false) →
      ∃ tr1,
        delFoundLoop cl out now ch (ms1 ++ ms2) idx td d c k =
          TraceOut.prepend tr1
            (delFoundLoop cl out now ch ms2 (idx + ms1.length)
              ((td ++ ms1).drop (100 * ((td.length + ms1.length) / 100)))
              (d ++ (td ++ ms1).take (100 * ((td.length + ms1.length) / 100)))
              (c + ms1.length) (k + (td.length + ms1.length) / 100)) ∧
          bulkLists tr1 = fullChunks (td ++ ms1) ∧
          indivList tr1 = [] := by
  intro ms1
  induction ms1 with
  | nil =>
    intro ms2 idx td d c k htd _
    refine ⟨[], ?_, ?_, rfl⟩
    · have hq : (td.length + ([] : List Message).length) / 100 = 0 := by
        simp only [List.length_nil]
        omega
      rw [TraceOut.prepend_nil, hq]
      simp
    · rw [fullChunks_eq_nil]
      · rfl
      · simpa using htd
  | cons m ms1' ih =>
    intro ms2 idx td d c k htd helig
    have hcm : cl c = true := hcl c
    have hagem : is_older_than_14d now m = false := helig m (by simp)
    by_cases hlen : (td ++ [m]).length = 100
    · -- the appended message completes a batch: flush
      have hlen99 : td.length + 1 = 100 := by simpa using hlen
      obtain ⟨tr1', heq, hbulk, hindiv⟩ := ih ms2 (idx + 1) []
        (d ++ (td ++ [m])) (c + 1) (k + 1) (by simp)
        (fun x hx => helig x (by simp [hx]))
      have hstep : delFoundLoop cl out now ch ((m :: ms1') ++ ms2) idx td d c k =
          TraceOut.prepend
            [Event.checkCleaning true, Event.bulkDelete ch (td ++ [m]) (out k)]
            (delFoundLoop cl out now ch (ms1' ++ ms2) (idx + 1) []
              (d ++ (td ++ [m])) (c + 1) (k + 1)) := by
        simp [delFoundLoop, hcm, hagem, hlen, hout k]
      have hsplit : td ++ m :: ms1' = (td ++ [m]) ++ ms1' := by simp
      have hq : (td.length + (m :: ms1').length) / 100 = 1 + ms1'.length / 100 := by
        simp only [List.length_cons]
        omega
      have hmul : 100 * (1 + ms1'.length / 100) =
          100 + 100 * (ms1'.length / 100) := by ring
      have e_drop : (td ++ m :: ms1').drop
          (100 * ((td.length + (m :: ms1').length) / 100)) =
          ms1'.drop (100 * (ms1'.length / 100)) := by
        rw [hsplit, hq, hmul]
        have hda : ((td ++ [m]) ++ ms1').drop
            ((td ++ [m]).length + 100 * (ms1'.length / 100)) =
            ms1'.drop (100 * (ms1'.length / 100)) :=
          List.drop_append (100 * (ms1'.length / 100))
        rw [hlen] at hda
        exact hda
      have e_take : (td ++ m :: ms1').take
          (100 * ((td.length + (m :: ms1').length) / 100)) =
          (td ++ [m]) ++ ms1'.take (100 * (ms1'.length / 100)) := by
        rw [hsplit, hq, hmul]
        have hta : ((td ++ [m]) ++ ms1').take
            ((td ++ [m]).length + 100 * (ms1'.length / 100)) =
            (td ++ [m]) ++ ms1'.take (100 * (ms1'.length / 100)) :=
          List.take_append (100 * (ms1'.length / 100))
        rw [hlen] at hta
        exact hta
      have e_k : k + (td.length + (m :: ms1').length) / 100 =
          (k + 1) + ms1'.length / 100 := by
        rw [hq]
        omega
      have e_c : c + (m :: ms1').length = (c + 1) + ms1'.length := by
        simp only [List.length_cons]
        omega
      have e_idx : idx + (m :: ms1').length = (idx + 1) + ms1'.length := by
        simp only [List.length_cons]
        omega
      refine ⟨Event.checkCleaning true ::
        Event.bulkDelete ch (td ++ [m]) (out k) :: tr1', ?_, ?_, ?_⟩
      · rw [hstep, heq, TraceOut.prepend_prepend, e_drop, e_take, e_k, e_c,
          e_idx]
        simp [List.append_assoc]
      · have hfc : fullChunks (td ++ m :: ms1') =
            (td ++ [m]) :: fullChunks ms1' := by
          rw [hsplit, fullChunks_eq_cons]
          · have ht := List.take_left (td ++ [m]) ms1'
            have hd := List.drop_left (td ++ [m]) ms1'
            rw [hlen] at ht hd
            rw [ht, hd]
          · rw [List.length_append, hlen]
            omega
        rw [hfc]
        simp only [bulkLists, hbulk, List.nil_append]
      · simp only [indivList, hindiv]
    · -- the batch is still short: just append
      have hlen1 : (td ++ [m]).length = td.length + 1 := by simp
      have htd' : (td ++ [m]).length < 100 := by omega
      have hne99 : ¬td.length = 99 := by omega
      obtain ⟨tr1', heq, hbulk, hindiv⟩ := ih ms2 (idx + 1) (td ++ [m]) d
        (c + 1) k htd' (fun x hx => helig x (by simp [hx]))
      have hstep : delFoundLoop cl out now ch ((m :: ms1') ++ ms2) idx td d c k =
          TraceOut.prepend [Event.checkCleaning true]
            (delFoundLoop cl out now ch (ms1' ++ ms2) (idx + 1) (td ++ [m]) d
              (c + 1) k) := by
        simp [delFoundLoop, hcm, hagem, hlen, hne99]
      have hsplit : td ++ m :: ms1' = (td ++ [m]) ++ ms1' := by simp
      have harith : td.length + (m :: ms1').length =
          (td ++ [m]).length + ms1'.length := by
        simp only [List.length_cons, List.length_append, List.length_singleton,
          List.length_nil]
        omega
      have e_c : c + (m :: ms1').length = (c + 1) + ms1'.length := by
        simp only [List.length_cons]
        omega
      have e_idx : idx + (m :: ms1').length = (idx + 1) + ms1'.length := by
        simp only [List.length_cons]
        omega
      refine ⟨Event.checkCleaning true :: tr1', ?_, ?_, ?_⟩
      · rw [hstep, heq, TraceOut.prepend_prepend, hsplit, harith, e_c, e_idx]
        simp
      · rw [hsplit]
        simp only [bulkLists, hbulk]
      · simp only [indivList, hindiv]

/-- With the flag set throughout and no fatal outcome, the individual pass
issues one delete call per message, in order, and returns normally. -/
theorem indiv_all_elig (cl : Nat → Bool) (out : Nat → DelOutcome)
    (hcl : ∀ n, cl n = true) (hout : ∀ n, out n ≠ DelOutcome.fatal) :
    ∀ (ms d : List Message) (c k : Nat),
      ∃ dd,
        (_delete_messages_individually cl out ms d c k).res = Except.ok dd ∧
          indivList (_delete_messages_individually cl out ms d c k).tr = ms ∧
          bulkLists (_delete_messages_individually cl out ms d c k).tr = [] := by
  intro ms
  induction ms with
  | nil => intro d c k; exact ⟨d, rfl, rfl, rfl⟩
  | cons m rest ih =>
    intro d c k
    have hcm : cl c = true := hcl c
    cases ho : out k with
    | fatal => exact absurd ho (hout k)
    | notFound =>
      obtain ⟨dd, h1, h2, h3⟩ := ih d (c + 1) (k + 1)
      refine ⟨dd, ?_, ?_, ?_⟩ <;>
        simp [_delete_messages_individually, hcm, ho, TraceOut.prepend,
          indivList, bulkLists, h1, h2, h3]
    | ok =>
      obtain ⟨dd, h1, h2, h3⟩ := ih (d ++ [m]) (c + 1) (k + 1)
      refine ⟨dd, ?_, ?_, ?_⟩ <;>
        simp [_delete_messages_individually, hcm, ho, TraceOut.prepend,
          indivList, bulkLists, h1, h2, h3]

/-- With the flag set, a `done` exit with an empty pending batch just
passes two checks and falls through. -/
theorem afterLoop_elig_none_nil (cl : Nat → Bool) (out : Nat → DelOutcome)
    (ch : Nat) (msgs d : List Message) (c k : Nat) (hcl : ∀ n, cl n = true) :
    delFoundAfterLoop cl out ch msgs none [] d c k =
      ⟨c + 2, k, [Event.checkCleaning true, Event.checkCleaning true],
        ChanRes.next d⟩ := by
  unfold delFoundAfterLoop delFoundAfterFlush
  simp [hcl c, hcl (c + 1), TraceOut.prepend]

/-- With the flag set and no fatal outcome, a `done` exit with a non-empty
pending batch flushes it once and falls through. -/
theorem afterLoop_elig_none_cons (cl : Nat → Bool) (out : Nat → DelOutcome)
    (ch : Nat) (msgs d : List Message) (c k : Nat) (t : Message)
    (ts : List Message) (hcl : ∀ n, cl n = true)
    (hout : ∀ n, out n ≠ DelOutcome.fatal) :
    delFoundAfterLoop cl out ch msgs none (t :: ts) d c k =
      ⟨c + 2, k + 1,
        [Event.checkCleaning true, Event.bulkDelete ch (t :: ts) (out k),
          Event.checkCleaning true],
        ChanRes.next (d ++ t :: ts)⟩ := by
  unfold delFoundAfterLoop delFoundAfterFlush
  simp [hcl c, hcl (c + 1), hout k, TraceOut.prepend]

/-- With the flag set and no fatal outcome, a `broke` exit with an empty
pending batch goes straight to the individual pass. -/
theorem afterLoop_elig_cut_nil (cl : Nat → Bool) (out : Nat → DelOutcome)
    (ch : Nat) (msgs d : List Message) (c k : Nat) (ci : Nat)
    (hcl : ∀ n, cl n = true) (hout : ∀ n, out n ≠ DelOutcome.fatal) :
    ∃ dd,
      delFoundAfterLoop cl out ch msgs (some ci) [] d c k =
        ⟨(_delete_messages_individually cl out (msgs.drop ci) [] (c + 2) k).c,
          (_delete_messages_individually cl out (msgs.drop ci) [] (c + 2) k).k,
          Event.checkCleaning true :: Event.checkCleaning true ::
            (_delete_messages_individually cl out (msgs.drop ci) [] (c + 2) k).tr,
          ChanRes.next (d ++ dd)⟩ ∧
        indivList (_delete_messages_individually cl out (msgs.drop ci) []
          (c + 2) k).tr = msgs.drop ci ∧
        bulkLists (_delete_messages_individually cl out (msgs.drop ci) []
          (c + 2) k).tr = [] := by
  obtain ⟨dd, h1, h2, h3⟩ := indiv_all_elig cl out hcl hout (msgs.drop ci) []
    (c + 2) k
  refine ⟨dd, ?_, h2, h3⟩
  unfold delFoundAfterLoop delFoundAfterFlush
  simp [hcl c, hcl (c + 1), h1, TraceOut.prepend]

/-- With the flag set and no fatal outcome, a `broke` exit with a non-empty
pending batch flushes it and then runs the individual pass. -/
theorem afterLoop_elig_cut_cons (cl : Nat → Bool) (out : Nat → DelOutcome)
    (ch : Nat) (msgs d : List Message) (c k : Nat) (ci : Nat) (t : Message)
    (ts : List Message) (hcl : ∀ n, cl n = true)
    (hout : ∀ n, out n ≠ DelOutcome.fatal) :
    ∃ dd,
      delFoundAfterLoop cl out ch msgs (some ci) (t :: ts) d c k =
        ⟨(_delete_messages_individually cl out (msgs.drop ci) [] (c + 2) (k + 1)).c,
          (_delete_messages_individually cl out (msgs.drop ci) [] (c + 2) (k + 1)).k,
          Event.checkCleaning true :: Event.bulkDelete ch (t :: ts) (out k) ::
            Event.checkCleaning true ::
            (_delete_messages_individually cl out (msgs.drop ci) [] (c + 2) (k + 1)).tr,
          ChanRes.next ((d ++ t :: ts) ++ dd)⟩ ∧
        indivList (_delete_messages_individually cl out (msgs.drop ci) []
          (c + 2) (k + 1)).tr = msgs.drop ci ∧
        bulkLists (_delete_messages_individually cl out (msgs.drop ci) []
          (c + 2) (k + 1)).tr = [] := by
  obtain ⟨dd, h1, h2, h3⟩ := indiv_all_elig cl out hcl hout (msgs.drop ci) []
    (c + 2) (k + 1)
  refine ⟨dd, ?_, h2, h3⟩
  unfold delFoundAfterLoop delFoundAfterFlush
  simp [hcl c, hcl (c + 1), hout k, h1, TraceOut.prepend]

/-- A channel of bulk-eligible messages (flag set, no fatal outcome): the
channel falls through having deleted all its messages; its bulk calls are
the complete 100-batches plus the non-empty leftover; no individual call. -/
theorem chan_all_elig (cl : Nat → Bool) (out : Nat → DelOutcome) (now ch : Nat)
    (hcl : ∀ n, cl n = true) (hout : ∀ n, out n ≠ DelOutcome.fatal)
    (msgs d : List Message) (c k : Nat)
    (helig : ∀ m ∈ msgs, is_older_than_14d now m = false) :
    (delFoundChannel cl out now ch msgs d c k).res = ChanRes.next (d ++ msgs) ∧
      bulkLists (delFoundChannel cl out now ch msgs d c k).tr =
        fullChunks msgs ++
          (if msgs.drop (100 * (msgs.length / 100)) = [] then []
            else [msgs.drop (100 * (msgs.length / 100))]) ∧
      indivList (delFoundChannel cl out now ch msgs d c k).tr = [] := by
  obtain ⟨tr1, heq, hbulk, hindiv⟩ := delFoundLoop_append_elig cl out now ch
    hcl hout msgs [] 0 [] d c k (by simp) helig
  rw [List.append_nil] at heq
  simp only [List.nil_append, List.length_nil, Nat.zero_add] at heq hbulk
  rw [show delFoundLoop cl out now ch [] msgs.length
      (List.drop (100 * (msgs.length / 100)) msgs)
      (d ++ List.take (100 * (msgs.length / 100)) msgs) (c + msgs.length)
      (k + msgs.length / 100) =
    ⟨c + msgs.length, k + msgs.length / 100, [],
      LoopRes.done (List.drop (100 * (msgs.length / 100)) msgs)
        (d ++ List.take (100 * (msgs.length / 100)) msgs)⟩ from rfl] at heq
  simp only [TraceOut.prepend, List.append_nil] at heq
  have htdr := List.take_append_drop (100 * (msgs.length / 100)) msgs
  unfold delFoundChannel
  rw [heq]
  dsimp only
  cases hrem : msgs.drop (100 * (msgs.length / 100)) with
  | nil =>
    have hle : msgs.length ≤ 100 * (msgs.length / 100) := by
      have hlen0 := congrArg List.length hrem
      simp only [List.length_drop, List.length_nil] at hlen0
      omega
    have htake : msgs.take (100 * (msgs.length / 100)) = msgs :=
      List.take_of_length_le hle
    rw [afterLoop_elig_none_nil cl out ch msgs
      (d ++ List.take (100 * (msgs.length / 100)) msgs) (c + msgs.length)
      (k + msgs.length / 100) hcl]
    simp only [TraceOut.prepend]
    refine ⟨?_, ?_, ?_⟩
    · simp [htake]
    · simp [bulkLists_append, hbulk, bulkLists]
    · simp [indivList_append, hindiv, indivList]
  | cons r rs =>
    rw [afterLoop_elig_none_cons cl out ch msgs
      (d ++ List.take (100 * (msgs.length / 100)) msgs) (c + msgs.length)
      (k + msgs.length / 100) r rs hcl hout]
    simp only [TraceOut.prepend]
    refine ⟨?_, ?_, ?_⟩
    · rw [List.append_assoc, ← hrem, htdr]
    · simp [bulkLists_append, hbulk, bulkLists]
    · simp [indivList_append, hindiv, indivList]

/-- The first too-old message breaks the scan loop with the batch pending. -/
theorem delFoundLoop_broke_step (cl : Nat → Bool) (out : Nat → DelOutcome)
    (now ch : Nat) (hcl : ∀ n, cl n = true) (m : Message)
    (rest : List Message) (idx : Nat) (td d : List Message) (c k : Nat)
    (hold : is_older_than_14d now m = true) :
    delFoundLoop cl out now ch (m :: rest) idx td d c k =
      ⟨c + 1, k, [Event.checkCleaning true], LoopRes.broke idx td d⟩ := by
  simp [delFoundLoop, hcl c, hold]

/-- A channel whose matches are eligible messages followed by a first
too-old message: the eligible prefix goes out in bulk calls, everything
from the cut message on gets one individual call each, in order. -/
theorem chan_cut_elig (cl : Nat → Bool) (out : Nat → DelOutcome) (now ch : Nat)
    (hcl : ∀ n, cl n = true) (hout : ∀ n, out n ≠ DelOutcome.fatal)
    (pre : List Message) (oldm : Message) (post : List Message)
    (d : List Message) (c k : Nat)
    (helig : ∀ m ∈ pre, is_older_than_14d now m = false)
    (hold : is_older_than_14d now oldm = true) :
    ∃ dd,
      (delFoundChannel cl out now ch (pre ++ oldm :: post) d c k).res =
          ChanRes.next dd ∧
        (bulkLists (delFoundChannel cl out now ch (pre ++ oldm :: post) d c k).tr).flatten =
          pre ∧
        indivList (delFoundChannel cl out now ch (pre ++ oldm :: post) d c k).tr =
          oldm :: post := by
  obtain ⟨tr1, heq, hbulk, hindiv⟩ := delFoundLoop_append_elig cl out now ch
    hcl hout pre (oldm :: post) 0 [] d c k (by simp) helig
  simp only [List.nil_append, List.length_nil, Nat.zero_add] at heq hbulk
  rw [delFoundLoop_broke_step cl out now ch hcl oldm post pre.length _ _ _ _
    hold] at heq
  simp only [TraceOut.prepend] at heq
  have hdropmsgs : (pre ++ oldm :: post).drop pre.length = oldm :: post :=
    List.drop_left pre (oldm :: post)
  have htdr := List.take_append_drop (100 * (pre.length / 100)) pre
  unfold delFoundChannel
  rw [heq]
  dsimp only
  cases hrem : pre.drop (100 * (pre.length / 100)) with
  | nil =>
    have hle : pre.length ≤ 100 * (pre.length / 100) := by
      have hlen0 := congrArg List.length hrem
      simp only [List.length_drop, List.length_nil] at hlen0
      omega
    have htake : pre.take (100 * (pre.length / 100)) = pre :=
      List.take_of_length_le hle
    obtain ⟨dd, hal, hiv, hbv⟩ := afterLoop_elig_cut_nil cl out ch
      (pre ++ oldm :: post) (d ++ pre.take (100 * (pre.length / 100)))
      (c + pre.length + 1) (k + pre.length / 100) pre.length hcl hout
    rw [hal]
    simp only [TraceOut.prepend]
    rw [hdropmsgs]
    rw [hdropmsgs] at hiv hbv
    refine ⟨_, rfl, ?_, ?_⟩
    · simp only [bulkLists_append, List.append_assoc, bulkLists, hbulk, hbv,
        List.append_nil]
      rw [fullChunks_join, htake]
    · simp only [indivList_append, List.append_assoc, indivList, hindiv, hiv]
      simp
  | cons r rs =>
    obtain ⟨dd, hal, hiv, hbv⟩ := afterLoop_elig_cut_cons cl out ch
      (pre ++ oldm :: post) (d ++ pre.take (100 * (pre.length / 100)))
      (c + pre.length + 1) (k + pre.length / 100) pre.length r rs hcl hout
    rw [hal]
    simp only [TraceOut.prepend]
    rw [hdropmsgs]
    rw [hdropmsgs] at hiv hbv
    refine ⟨_, rfl, ?_, ?_⟩
    · simp only [bulkLists_append, List.append_assoc, bulkLists, hbulk, hbv,
        List.append_nil]
      rw [List.flatten_append, fullChunks_join]
      simp only [List.flatten_cons, List.flatten_nil, List.append_nil]
      rw [← hrem]
      exact htdr
    · simp only [indivList_append, List.append_assoc, indivList, hindiv, hiv]
      simp

/-- A single-channel deletion pass whose channel falls through with `dd`
returns `dd` and emits exactly the channel's trace. -/
theorem delFound_single_of_next (cl : Nat → Bool) (out : Nat → DelOutcome)
    (now ch : Nat) (msgs dd : List Message)
    (hco : (delFoundChannel cl out now ch msgs [] 0 0).res = ChanRes.next dd) :
    (_delete_found cl out now [(ch, msgs)]).res = Except.ok dd ∧
      (_delete_found cl out now [(ch, msgs)]).tr =
        (delFoundChannel cl out now ch msgs [] 0 0).tr := by
  unfold _delete_found
  simp only [delFoundGo]
  rw [hco]
  simp [delFoundGo, TraceOut.prepend]

/-- Claim C1 (amended): for a channel of N > 100 bulk-eligible messages
with the flag set throughout and no fatal outcome, the Deleter issues
exactly ⌈N/100⌉ bulk-delete calls of at most 100 messages each, and
returns all N messages regardless of `NotFound` outcomes on bulk calls —
the code extends `deleted` outside the `suppress(NotFound)` block, so
bulk-covered messages are never excluded (see the counterexample against
the claim's "N minus NotFound outcomes"). -/
theorem c1_bulk_batches_amended (cl : Nat → Bool) (out : Nat → DelOutcome)
    (now ch : Nat) (msgs : List Message)
    (hcl : ∀ n, cl n = true) (hout : ∀ n, out n ≠ DelOutcome.fatal)
    (helig : ∀ m ∈ msgs, is_older_than_14d now m = false)
    (_hlen : 100 < msgs.length) :
    (_delete_found cl out now [(ch, msgs)]).res = Except.ok msgs ∧
      (bulkLists (_delete_found cl out now [(ch, msgs)]).tr).length =
        (msgs.length + 99) / 100 ∧
      ∀ l ∈ bulkLists (_delete_found cl out now [(ch, msgs)]).tr,
        l.length ≤ 100 := by
  obtain ⟨hres, hblk, hind⟩ := chan_all_elig cl out now ch hcl hout msgs [] 0 0
    helig
  rw [List.nil_append] at hres
  obtain ⟨hgres, hgtr⟩ := delFound_single_of_next cl out now ch msgs msgs hres
  refine ⟨hgres, ?_, ?_⟩
  · rw [hgtr, hblk, List.length_append, fullChunks_length]
    by_cases hz : msgs.drop (100 * (msgs.length / 100)) = []
    · rw [if_pos hz]
      have hlen0 := congrArg List.length hz
      simp only [List.length_drop, List.length_nil] at hlen0
      simp only [List.length_nil]
      omega
    · rw [if_neg hz]
      have hlt : ¬msgs.length ≤ 100 * (msgs.length / 100) := by
        intro hcon
        exact hz (List.drop_eq_nil_of_le hcon)
      simp only [List.length_cons, List.length_nil]
      omega
  · rw [hgtr, hblk]
    intro l hl
    rw [List.mem_append] at hl
    rcases hl with hl | hl
    · exact le_of_eq (fullChunks_mem_length msgs l hl)
    · by_cases hz : msgs.drop (100 * (msgs.length / 100)) = []
      · rw [if_pos hz] at hl
        simp at hl
      · rw [if_neg hz] at hl
        rw [List.mem_singleton] at hl
        subst hl
        rw [List.length_drop]
        omega

set_option maxRecDepth 8000 in
/-- Counterexample to C1 as stated: 101 eligible messages, first bulk call
(100 messages) reports `NotFound`; the claim predicts a result of length
101 − 100 = 1, but the code returns all 101 messages. -/
theorem c1_bulk_notfound_counterexample :
    (_delete_found (fun _ => true) outCE nowCE [(1, ceMsgs)]).res =
        Except.ok ceMsgs ∧
      ceMsgs.length = 101 ∧
      notFoundCovered (_delete_found (fun _ => true) outCE nowCE
        [(1, ceMsgs)]).tr = 100 ∧
      ¬(101 = 101 - 100) :=
  ⟨rfl, rfl, rfl, by decide⟩

/-- Witness for the amended C1 at 101 concrete messages. -/
theorem c1_bulk_batches_amended_witness :
    (_delete_found (fun _ => true) (fun _ => DelOutcome.ok) nowCE
        [(1, ceMsgs)]).res = Except.ok ceMsgs ∧
      (bulkLists (_delete_found (fun _ => true) (fun _ => DelOutcome.ok) nowCE
        [(1, ceMsgs)]).tr).length = (ceMsgs.length + 99) / 100 ∧
      ∀ l ∈ bulkLists (_delete_found (fun _ => true) (fun _ => DelOutcome.ok)
        nowCE [(1, ceMsgs)]).tr, l.length ≤ 100 :=
  c1_bulk_batches_amended (fun _ => true) (fun _ => DelOutcome.ok) nowCE 1
    ceMsgs (fun _ => rfl) (fun _ h => DelOutcome.noConfusion h)
    (by
      intro m hm
      have hall : ceMsgs.all (fun m => !is_older_than_14d nowCE m) = true := by
        decide
      have := List.all_eq_true.mp hall m hm
      simpa using this)
    (by decide)

/-- Claim C2: without cancellation and with no fatal outcome, the messages
before the first ineligible one are exactly those covered by bulk-delete
calls, and the messages from the cut point on (the cut message included)
each get one individual delete call, in source order; with no ineligible
message there is no individual deletion at all. -/
theorem c2_cut_point :
    (∀ (cl : Nat → Bool) (out : Nat → DelOutcome) (now ch : Nat)
        (pre : List Message) (oldm : Message) (post : List Message),
      (∀ n, cl n = true) → (∀ n, out n ≠ DelOutcome.fatal) →
      (∀ m ∈ pre, is_older_than_14d now m = false) →
      is_older_than_14d now oldm = true →
      (bulkLists (_delete_found cl out now
          [(ch, pre ++ oldm :: post)]).tr).flatten = pre ∧
        indivList (_delete_found cl out now
          [(ch, pre ++ oldm :: post)]).tr = oldm :: post) ∧
      (∀ (cl : Nat → Bool) (out : Nat → DelOutcome) (now ch : Nat)
          (msgs : List Message),
        (∀ n, cl n = true) → (∀ n, out n ≠ DelOutcome.fatal) →
        (∀ m ∈ msgs, is_older_than_14d now m = false) →
        indivList (_delete_found cl out now [(ch, msgs)]).tr = []) := by
  constructor
  · intro cl out now ch pre oldm post hcl hout helig hold
    obtain ⟨dd, hres, hb, hi⟩ := chan_cut_elig cl out now ch hcl hout pre oldm
      post [] 0 0 helig hold
    obtain ⟨hgres, hgtr⟩ := delFound_single_of_next cl out now ch _ dd hres
    rw [hgtr]
    exact ⟨hb, hi⟩
  · intro cl out now ch msgs hcl hout helig
    obtain ⟨hres, hb, hi⟩ := chan_all_elig cl out now ch hcl hout msgs [] 0 0
      helig
    rw [List.nil_append] at hres
    obtain ⟨hgres, hgtr⟩ := delFound_single_of_next cl out now ch msgs msgs hres
    rw [hgtr]
    exact hi

/-- Witness for C2: one eligible message, then a too-old one. -/
theorem c2_cut_point_witness :
    ((bulkLists (_delete_found (fun _ => true) (fun _ => DelOutcome.ok) nowCE
          [(1, [mYoung] ++ mOld :: [])]).tr).flatten = [mYoung] ∧
        indivList (_delete_found (fun _ => true) (fun _ => DelOutcome.ok) nowCE
          [(1, [mYoung] ++ mOld :: [])]).tr = mOld :: []) ∧
      indivList (_delete_found (fun _ => true) (fun _ => DelOutcome.ok) nowCE
        [(1, [mYoung])]).tr = [] :=
  ⟨c2_cut_point.1 (fun _ => true) (fun _ => DelOutcome.ok) nowCE 1 [mYoung]
      mOld [] (fun _ => rfl) (fun _ h => DelOutcome.noConfusion h)
      (by
        intro m hm
        rw [List.mem_singleton] at hm
        subst hm
        decide)
      (by decide),
    c2_cut_point.2 (fun _ => true) (fun _ => DelOutcome.ok) nowCE 1 [mYoung]
      (fun _ => rfl) (fun _ h => DelOutcome.noConfusion h)
      (by
        intro m hm
        rw [List.mem_singleton] at hm
        subst hm
        decide)⟩
